import Mathlib

/-!
# Kernel command line parameter store (package procfs, cmdline.go)

A shallow embedding of the parameter store of
vendor/github.com/talos-systems/go-procfs/procfs/cmdline.go and the
properties of its parser, serializer and mutation operations.

Representation choices.

* A Go string is modelled as the list of its code points (Str).  All
  separators used by the source (space, newline, the equals sign) are ASCII,
  so the library functions used by the source act on code points exactly as
  they act on the UTF-8 bytes of a well-formed string.
* A slot of type *Parameter is modelled by the record it points to; the nil
  pointer is modelled by none where the source tests for it (the receivers
  of the Parameter accessors).  This is exact for a store whose slots hold
  objects of their own, as in every store built by parse and in every store
  with pairwise distinct keys.  Where two slots may hold the same object, the
  section on the store at pointer level keeps the objects by address.
* A nil slice and an empty slice are both the empty list: the source only
  takes the length of, ranges over and appends to value slices.
* A method that mutates its receiver returns the new store.  For concurrent
  callers, the section on the lock gives each method body as its steps on the
  mutex and on the shared slice, run under every interleaving.
* The package variables once and instance are passed as a state; the outcome
  of reading the external file is a parameter.
* A run-time panic is an error result (Except Fault).
-/

namespace Procfs

/-- Go strings, as lists of code points. -/
abbrev Str := List Char

/-! ## The functions of Go's standard library used by the source -/

/-- Go unicode.IsSpace: the white space code points. -/
def isSpace (c : Char) : Bool :=
  let n := c.toNat
  (9 ≤ n && n ≤ 13) || n == 32 || n == 0x85 || n == 0xA0 || n == 0x1680 ||
  (0x2000 ≤ n && n ≤ 0x200A) || n == 0x2028 || n == 0x2029 || n == 0x202F ||
  n == 0x205F || n == 0x3000

/-- The scanning loop of strings.Fields: cur is the field being read. -/
def fieldsFrom : Str → Str → List Str
  | cur, [] => if cur = [] then [] else [cur]
  | cur, c :: cs =>
    if isSpace c then
      (if cur = [] then fieldsFrom [] cs else cur :: fieldsFrom [] cs)
    else fieldsFrom (cur ++ [c]) cs

/-- Go strings.Fields: the maximal runs of non-space code points. -/
def Fields (s : Str) : List Str := fieldsFrom [] s

/-- Go strings.TrimSuffix. -/
def TrimSuffix (s suffix : Str) : Str :=
  if suffix <:+ s then s.take (s.length - suffix.length) else s

/-- Go strings.SplitN (s, sep, 2) for a separator of one code point:
the text before the first separator and the text after it, or s alone. -/
def SplitN2 (s : Str) (sep : Char) : List Str :=
  match s.dropWhile (fun c => c != sep) with
  | [] => [s]
  | _ :: rest => [s.takeWhile (fun c => c != sep), rest]

/-- Go strings.TrimRight: removes the trailing code points that are in cutset. -/
def TrimRight (s cutset : Str) : Str :=
  s.rdropWhile (fun c => cutset.contains c)

/-- Go strings.Split for a separator of one code point. -/
def Split (s : Str) (sep : Char) : List Str := s.splitOn sep

/-- Go strings.Join. -/
def Join (elems : List Str) (sep : Str) : Str := sep.intercalate elems

/-- The newline character. -/
def nl : Char := Char.ofNat 10

/-! ## Parameter -/

/-- A run-time panic of the Go program. -/
inductive Fault where
  | indexOutOfRange
  | readError (err : Str)
  deriving DecidableEq, Repr

/-- The struct Parameter: a key and its values. -/
structure Parameter where
  key : Str
  values : List Str
  deriving DecidableEq, Repr

/-- NewParameter. -/
def NewParameter (k : Str) : Parameter := { key := k, values := [] }

/-- Parameter.Append: v.values = append(v.values, s). -/
def Parameter.Append (v : Parameter) (s : Str) : Parameter :=
  { v with values := v.values ++ [s] }

/-- The Go index expression xs[i] on a slice, with its bounds check. -/
def index (xs : List Str) (i : Int) : Except Fault Str :=
  if 0 ≤ i ∧ i < xs.length then
    match xs.get? i.toNat with
    | some x => .ok x
    | none => .error .indexOutOfRange
  else .error .indexOutOfRange

/-- Parameter.First; the receiver may be nil, the result is nil or a value.
The case of a nil value slice and the default case both return nil. -/
def Parameter.First (v : Option Parameter) : Except Fault (Option Str) :=
  match v with
  | none => .ok none
  | some p =>
    if p.values.length > 0 then (index p.values 0).map some
    else .ok none

/-- Parameter.Get; the receiver may be nil, the result is nil or a value. -/
def Parameter.Get (v : Option Parameter) (idx : Int) : Except Fault (Option Str) :=
  match v with
  | none => .ok none
  | some p =>
    if (p.values.length : Int) > idx then (index p.values idx).map some
    else .ok none

/-- Parameter.Contains. -/
def Parameter.Contains (v : Option Parameter) (s : Str) : Bool :=
  match v with
  | none => false
  | some p => p.values.any (fun value => s == value)

/-- Parameter.Key. -/
def Parameter.Key (v : Parameter) : Str := v.key

/-! ## Parameters and Cmdline -/

/-- The type Parameters. -/
abbrev Parameters := List Parameter

/-- The body of the loops of Parameters.String, before the final trim. -/
def Parameters.render (p : Parameters) : Str :=
  p.foldl (fun s v =>
    v.values.foldl (fun s val =>
      if val = [] then s ++ v.key ++ [' '] else s ++ v.key ++ ['='] ++ val ++ [' ']) s) []

/-- Parameters.String. -/
def Parameters.String (p : Parameters) : Str := TrimRight p.render [' ']

/-- Parameters.Strings. -/
def Parameters.Strings (p : Parameters) : List Str := Split p.String ' '

/-- The function insert. -/
def insert : Parameters → Str → Str → Parameters
  | [], key, value => [{ key := key, values := [value] }]
  | v :: rest, key, value =>
    if v.key = key then v.Append value :: rest else v :: insert rest key value

/-- The function parse. -/
def parse (parameters : Str) : Parameters :=
  let line := TrimSuffix parameters [nl]
  let fields := Fields line
  fields.foldl (fun parsed arg =>
    match SplitN2 arg '=' with
    | [k] => insert parsed k []
    | [k, v] => insert parsed k v
    | _ => parsed) []

/-- The struct Cmdline; its mutex is kept with the callers, in Shared. -/
structure Cmdline where
  Parameters : Parameters
  deriving DecidableEq, Repr

/-- NewCmdline. -/
def NewCmdline (parameters : Str) : Cmdline := { Parameters := parse parameters }

/-- Cmdline.Get: the first entry with key k, or nil. -/
def Cmdline.Get (c : Cmdline) (k : Str) : Option Parameter :=
  c.Parameters.find? (fun value => value.key = k)

/-- The loop of Cmdline.Set on the slice of entries. -/
def setLoop : Parameters → Str → Parameter → Parameters
  | [], _, v => [v]
  | value :: rest, k, v => if value.key = k then v :: rest else value :: setLoop rest k v

/-- Cmdline.Set. -/
def Cmdline.Set (c : Cmdline) (k : Str) (v : Parameter) : Cmdline :=
  { Parameters := setLoop c.Parameters k v }

/-- Cmdline.SetAll. -/
def Cmdline.SetAll (c : Cmdline) (args : List Str) : Cmdline :=
  (parse (Join args [' '])).foldl (fun c p => c.Set p.key p) c

/-- The loop of Cmdline.Append: the first entry with key k gets the value
appended in place; none when no entry has key k. -/
def appendLoop : Parameters → Str → Str → Option Parameters
  | [], _, _ => none
  | value :: rest, k, v =>
    if value.key = k then some (value.Append v :: rest)
    else (appendLoop rest k v).map (fun rest1 => value :: rest1)

/-- Cmdline.Append, on entries that are objects of their own (Memory.Append
is the method on pointers). -/
def Cmdline.Append (c : Cmdline) (k v : Str) : Cmdline :=
  match appendLoop c.Parameters k v with
  | some ps => { Parameters := ps }
  | none => { Parameters := insert c.Parameters k v }

/-- The struct AppendAllOptions. -/
structure AppendAllOptions where
  OverwriteArgs : List Str
  deriving DecidableEq, Repr

/-- The type AppendAllOption. -/
abbrev AppendAllOption := AppendAllOptions → AppendAllOptions

/-- WithOverwriteArgs. -/
def WithOverwriteArgs (args : List Str) : AppendAllOption :=
  fun opts => { opts with OverwriteArgs := opts.OverwriteArgs ++ args }

/-- Cmdline.AppendAll (its error result is always nil). -/
def Cmdline.AppendAll (c : Cmdline) (args : List Str) (opts : List AppendAllOption) : Cmdline :=
  let options : AppendAllOptions := opts.foldl (fun o opt => opt o) { OverwriteArgs := [] }
  (parse (Join args [' '])).foldl (fun c p =>
    if options.OverwriteArgs.any (fun key => key == p.key) then c.Set p.key p
    else p.values.foldl (fun c v => c.Append p.key v) c) c

/-! ## The singleton ProcCmdline -/

/-- The function read, given the outcome of ioutil.ReadFile on /proc/cmdline:
the content of the file, or an error. -/
def read (file : Except Str Str) : Except Str Cmdline :=
  match file with
  | .error err => .error err
  | .ok parameters => .ok { Parameters := parse parameters }

/-- The package variables once and instance, and the number of reads of the
external source made so far. Go sync.Once marks itself done when the
function it runs returns or panics. -/
structure Package where
  onceDone : Bool
  inst : Option Cmdline
  reads : Nat
  deriving DecidableEq, Repr

/-- The package variables when the program starts. -/
def Package.start : Package := { onceDone := false, inst := none, reads := 0 }

/-- ProcCmdline: the result of the call (a panic is an error) and the package
variables after it; source gives the outcome of each read of the file, by
the number of reads made before it. -/
def ProcCmdline (source : Nat → Except Str Str) (w : Package) :
    Except Fault (Option Cmdline) × Package :=
  if w.onceDone then (.ok w.inst, w)
  else
    match read (source w.reads) with
    | .ok c => (.ok (some c), { onceDone := true, inst := some c, reads := w.reads + 1 })
    | .error err =>
      (.error (.readError err), { onceDone := true, inst := none, reads := w.reads + 1 })

/-- The results of n successive calls of ProcCmdline, and the package
variables after them. -/
def ProcCmdlineCalls (source : Nat → Except Str Str) :
    Nat → Package → List (Except Fault (Option Cmdline)) × Package
  | 0, w => ([], w)
  | n + 1, w =>
    ((ProcCmdline source w).1 :: (ProcCmdlineCalls source n (ProcCmdline source w).2).1,
      (ProcCmdlineCalls source n (ProcCmdline source w).2).2)

/-! ## The store at pointer level

The slots of c.Parameters hold pointers, and Parameter.Append writes through
the pointer.  Memory keeps the Parameter objects by address, so that two slots
may hold the same object. -/

/-- The Parameter objects in memory and the store that points to them: heap
gives the struct at each address, the addresses below next are allocated, and
slots is the slice c.Parameters of pointers. -/
structure Memory where
  heap : Nat → Parameter
  next : Nat
  slots : List Nat

/-- The memory before anything is allocated, with an empty slice. -/
def Memory.empty : Memory := { heap := fun _ => { key := [], values := [] }, next := 0, slots := [] }

/-- A new object: the memory with the object at a fresh address, and the
address. -/
def Memory.alloc (m : Memory) (p : Parameter) : Memory × Nat :=
  ({ m with heap := fun a => if a = m.next then p else m.heap a, next := m.next + 1 }, m.next)

/-- NewParameter at pointer level: the pointer to a new object. -/
def Memory.NewParameter (m : Memory) (k : Str) : Memory × Nat :=
  m.alloc (Procfs.NewParameter k)

/-- Parameter.Append through the pointer a: v.values = append(v.values, s). -/
def Memory.write (m : Memory) (a : Nat) (s : Str) : Memory :=
  { m with heap := fun b => if b = a then (m.heap a).Append s else m.heap b }

/-- The pointer held by the first slot whose object has key k. -/
def Memory.find (m : Memory) (k : Str) : Option Nat :=
  m.slots.find? (fun a => (m.heap a).key = k)

/-- The function insert at pointer level. -/
def Memory.insert (m : Memory) (key value : Str) : Memory :=
  match m.find key with
  | some a => m.write a value
  | none =>
    { heap := (m.alloc { key := key, values := [value] }).1.heap,
      next := (m.alloc { key := key, values := [value] }).1.next,
      slots := m.slots ++ [(m.alloc { key := key, values := [value] }).2] }

/-- The function parse at pointer level. -/
def Memory.parse (parameters : Str) : Memory :=
  (Fields (TrimSuffix parameters [nl])).foldl (fun parsed arg =>
    match SplitN2 arg '=' with
    | [k] => parsed.insert k []
    | [k, v] => parsed.insert k v
    | _ => parsed) Memory.empty

/-- NewCmdline at pointer level. -/
def Memory.NewCmdline (parameters : Str) : Memory := Memory.parse parameters

/-- The loop of Cmdline.Set on the slice of pointers. -/
def Memory.setSlots (heap : Nat → Parameter) : List Nat → Str → Nat → List Nat
  | [], _, v => [v]
  | a :: rest, k, v =>
    if (heap a).key = k then v :: rest else a :: Memory.setSlots heap rest k v

/-- Cmdline.Set at pointer level: v is a pointer. -/
def Memory.Set (m : Memory) (k : Str) (v : Nat) : Memory :=
  { m with slots := Memory.setSlots m.heap m.slots k v }

/-- Cmdline.Append at pointer level: the value is appended through the
pointer of the first slot with key k, or insert is called. -/
def Memory.Append (m : Memory) (k v : Str) : Memory :=
  match m.find k with
  | some a => m.write a v
  | none => m.insert k v

/-- The entries of the store as a reader sees them, slot by slot. -/
def Memory.view (m : Memory) : Cmdline := { Parameters := m.slots.map m.heap }

/-- The store after NewCmdline("a b"), p := NewParameter("a"), Set("a", p) and
Set("b", p): both slots hold the pointer p. -/
def sharedSlots : Memory :=
  (((Memory.NewCmdline "a b".toList).NewParameter "a".toList).1.Set "a".toList
    ((Memory.NewCmdline "a b".toList).NewParameter "a".toList).2).Set "b".toList
    ((Memory.NewCmdline "a b".toList).NewParameter "a".toList).2

/-- The slots hold allocated addresses, no two of them the same: every entry
of the store is an object of its own. -/
def Memory.Separate (m : Memory) : Prop :=
  (∀ a ∈ m.slots, a < m.next) ∧ m.slots.Nodup

/-! ## Vocabulary of the specification -/

/-- A token: a non-empty text without white space. -/
def IsWord (t : Str) : Prop := t ≠ [] ∧ ∀ c ∈ t, isSpace c = false

/-- The key carried by a token: the text before its first equals sign. -/
def tokenKey (t : Str) : Str := t.takeWhile (fun c => c != '=')

/-- The value carried by a token: the text after its first equals sign, the
empty text for a token without one. -/
def tokenValue (t : Str) : Str := (t.dropWhile (fun c => c != '=')).drop 1

/-- The white space delimited tokens of a text. -/
def tokens (s : Str) : List Str := Fields s

/-- The keys of a sequence of entries, in order. -/
def keys (ps : Parameters) : List Str := ps.map Parameter.key

/-- The token that the serializer writes for a key and one of its values. -/
def tokenOf (k v : Str) : Str := if v = [] then k else k ++ ['='] ++ v

/-- The pair (key, value) carried by a token. -/
def tokenPair (t : Str) : Str × Str := (tokenKey t, tokenValue t)

/-- The fold of insert over a sequence of (key, value) pairs. -/
def insertAll (acc : Parameters) (kvs : List (Str × Str)) : Parameters :=
  kvs.foldl (fun a kv => insert a kv.1 kv.2) acc

/-- The values paired with key k, in order. -/
def valuesFor (kvs : List (Str × Str)) (k : Str) : List Str :=
  (kvs.filter (fun kv => kv.1 = k)).map Prod.snd

/-- The values of the first entry with key k, none when there is no entry. -/
def valuesAt (ps : Parameters) (k : Str) : List Str :=
  match ps.find? (fun p => p.key = k) with
  | some p => p.values
  | none => []

/-- Keys in the order of first occurrence, continuing the list ks. -/
def addKeys (ks new : List Str) : List Str :=
  new.foldl (fun a k => if k ∈ a then a else a ++ [k]) ks

/-- The index of the first occurrence of k in ks (the length when absent). -/
def firstIndex (ks : List Str) (k : Str) : Nat := ks.findIdx (fun x => x = k)

/-- A call of one of the mutating methods of the store, with its arguments. -/
inductive Call where
  | set (k : Str) (p : Parameter)
  | setAll (args : List Str)
  | append (k v : Str)
  | appendAll (args : List Str) (opts : List AppendAllOption)

/-- The store after a call. -/
def Call.run (c : Cmdline) : Call → Cmdline
  | .set k p => c.Set k p
  | .setAll args => c.SetAll args
  | .append k v => c.Append k v
  | .appendAll args opts => c.AppendAll args opts

/-- A call of Set is keyed when the parameter it passes carries the key it is
stored under; the other calls always are. -/
def Call.keyed : Call → Prop
  | .set k p => p.Key = k
  | _ => True

/-- The step of the merge loop of AppendAll for one parsed parameter, given
the keys to overwrite. -/
def mergeStep (O : List Str) (c : Cmdline) (p : Parameter) : Cmdline :=
  if O.any (fun key => key == p.key) then c.Set p.key p
  else p.values.foldl (fun c v => c.Append p.key v) c

/-- The white space delimited tokens of a list of arguments, in order. -/
def argTokens (args : List Str) : List Str := args.flatMap tokens

/-- The value list of key k in a store, empty when k has no entry. -/
def Cmdline.valuesOf (c : Cmdline) (k : Str) : List Str :=
  match c.Get k with
  | some p => p.values
  | none => []

/-- The tokens that the serializer writes for a sequence of entries: one per
value per entry, in entry order then value order. -/
def emitted (ps : Parameters) : List Str :=
  ps.flatMap (fun p => p.values.map (tokenOf p.key))

/-- The (key, value) pairs held by a sequence of entries, in entry order then
value order. -/
def pairsOf (ps : Parameters) : List (Str × Str) :=
  ps.flatMap (fun p => p.values.map (fun v => (p.key, v)))

/-- The way a token is written back: a token with an empty value (a bare
flag, or a key followed by an equals sign and nothing) as its bare key, any
other token unchanged. -/
def written (t : Str) : Str := if tokenValue t = [] then tokenKey t else t

/-- All occurrences of a key are next to each other. -/
def Adjacent (ks : List Str) : Prop :=
  ∀ l < ks.length, ∀ j < l, ∀ i < j, ks[i]? = ks[l]? → ks[j]? = ks[l]?

instance (ks : List Str) : Decidable (Adjacent ks) :=
  Nat.decidableBallLT ks.length
    (fun l _ => ∀ j < l, ∀ i < j, ks[i]? = ks[l]? → ks[j]? = ks[l]?)

/-- The calls of Set and Append that the merge loop of AppendAll makes for
the parsed parameters P, given the keys to overwrite: one Set for a parameter
whose key is to be overwritten, one Append per value for any other. -/
def mergeCalls (O : List Str) (P : Parameters) : List Call :=
  P.flatMap (fun p =>
    if O.any (fun key => key == p.key) then [Call.set p.key p]
    else p.values.map (fun v => Call.append p.key v))

/-! ## Concurrent callers and the lock of the store -/

/-- The overwrite list that AppendAll builds from its options. -/
def overwriteArgs (opts : List AppendAllOption) : List Str :=
  (opts.foldl (fun (o : AppendAllOptions) (opt : AppendAllOption) => opt o)
    { OverwriteArgs := [] }).OverwriteArgs

/-- What a method body does to the mutex and to the shared slice
c.Parameters, step by step: c.Lock(), which waits until the mutex is free and
takes it; a read of c.Parameters; a write of c.Parameters, with what the call
makes of the slice that the body read; the deferred c.Unlock(). -/
inductive Instr where
  | lock
  | load
  | store (call : Call)
  | unlock

/-- The body of Cmdline.Get: Lock, the scan of c.Parameters, the deferred
Unlock. -/
def GetBody (_k : Str) : List Instr := [.lock, .load, .unlock]

/-- The body of Cmdline.Set: Lock, the scan of c.Parameters, the assignment
to c.Parameters, the deferred Unlock. -/
def SetBody (k : Str) (v : Parameter) : List Instr :=
  [.lock, .load, .store (.set k v), .unlock]

/-- The body of Cmdline.Append: Lock, the scan of c.Parameters, the update of
the entry or the call of insert, the deferred Unlock. -/
def AppendBody (k v : Str) : List Instr :=
  [.lock, .load, .store (.append k v), .unlock]

/-- The body of Cmdline.SetAll: no Lock of its own, one call of Set per parsed
parameter. -/
def SetAllBody (args : List Str) : List Instr :=
  (parse (Join args [' '])).flatMap (fun p => SetBody p.key p)

/-- The body of Cmdline.AppendAll: no Lock of its own; for each parsed
parameter one call of Set, or one call of Append per value. -/
def AppendAllBody (args : List Str) (opts : List AppendAllOption) : List Instr :=
  (parse (Join args [' '])).flatMap (fun p =>
    if (overwriteArgs opts).any (fun key => key == p.key) then SetBody p.key p
    else p.values.flatMap (fun v => AppendBody p.key v))

/-- A call of a method of the store by one of its callers. -/
inductive Op where
  | get (k : Str)
  | set (k : Str) (v : Parameter)
  | append (k v : Str)
  | setAll (args : List Str)
  | appendAll (args : List Str) (opts : List AppendAllOption)

/-- The body of a call. -/
def Op.body : Op → List Instr
  | .get k => GetBody k
  | .set k v => SetBody k v
  | .append k v => AppendBody k v
  | .setAll args => SetAllBody args
  | .appendAll args opts => AppendAllBody args opts

/-- The store after a call that runs alone. -/
def Op.run (c : Cmdline) : Op → Cmdline
  | .get _ => c
  | .set k v => c.Set k v
  | .append k v => c.Append k v
  | .setAll args => c.SetAll args
  | .appendAll args opts => c.AppendAll args opts

/-- The calls of Set and Append that a call makes or is, in order. -/
def Op.writes : Op → List Call
  | .get _ => []
  | .set k v => [.set k v]
  | .append k v => [.append k v]
  | .setAll args => (parse (Join args [' '])).map (fun p => Call.set p.key p)
  | .appendAll args opts => mergeCalls (overwriteArgs opts) (parse (Join args [' ']))

/-- A caller: the instructions it has still to run, and the slice its current
call has read. -/
structure Thread where
  prog : List Instr
  loaded : Option Cmdline

/-- The store shared by the callers: its entries, the caller that holds the
mutex, the callers, and the calls that have written to the store so far, each
with its caller. -/
structure Shared where
  store : Cmdline
  owner : Option Nat
  threads : Nat → Thread
  log : List (Nat × Call)

/-- The callers at the start, each with the calls it is going to make. -/
def Shared.start (c : Cmdline) (ops : Nat → List Op) : Shared :=
  { store := c, owner := none, log := [],
    threads := fun t => { prog := (ops t).flatMap Op.body, loaded := none } }

/-- One step of caller t. A caller at Lock while the mutex is held waits. -/
def Shared.step (s : Shared) (t : Nat) : Shared :=
  match (s.threads t).prog with
  | [] => s
  | .lock :: rest =>
    if s.owner = none then
      { s with
        owner := some t,
        threads := fun u =>
          if u = t then { prog := rest, loaded := (s.threads t).loaded } else s.threads u }
    else s
  | .load :: rest =>
    { s with
      threads := fun u => if u = t then { prog := rest, loaded := some s.store } else s.threads u }
  | .store call :: rest =>
    match (s.threads t).loaded with
    | some x =>
      { store := Call.run x call, owner := s.owner, log := s.log ++ [(t, call)],
        threads := fun u => if u = t then { prog := rest, loaded := some x } else s.threads u }
    | none =>
      { s with
        threads := fun u => if u = t then { prog := rest, loaded := none } else s.threads u }
  | .unlock :: rest =>
    { s with
      owner := none,
      threads := fun u =>
        if u = t then { prog := rest, loaded := (s.threads t).loaded } else s.threads u }

/-- The run of the callers under a schedule: the list of the callers that
take the successive steps. -/
def Shared.run (s : Shared) (schedule : List Nat) : Shared :=
  schedule.foldl Shared.step s

/-- The store after the logged calls, run one after another. -/
def applyLog (c : Cmdline) (log : List (Nat × Call)) : Cmdline :=
  log.foldl (fun c e => Call.run c e.2) c

/-- The calls that write in a list of instructions, in order. -/
def writesOf : List Instr → List Call
  | [] => []
  | .store call :: rest => call :: writesOf rest
  | _ :: rest => writesOf rest

/-- A list of instructions made of whole critical sections: Lock, a read,
possibly a write, Unlock. -/
inductive Sectioned : List Instr → Prop where
  | nil : Sectioned []
  | read (rest : List Instr) : Sectioned rest →
      Sectioned (.lock :: .load :: .unlock :: rest)
  | write (call : Call) (rest : List Instr) : Sectioned rest →
      Sectioned (.lock :: .load :: .store call :: .unlock :: rest)

/-- Where caller t stands: between critical sections without the mutex, or
inside one with the mutex; just before its write, what it has read is the
store as it is. -/
def ThreadOK (s : Shared) (t : Nat) : Prop :=
  (Sectioned (s.threads t).prog ∧ s.owner ≠ some t) ∨
  (s.owner = some t ∧ ∃ rest, Sectioned rest ∧
    ((s.threads t).prog = .load :: .unlock :: rest ∨
     (∃ w, (s.threads t).prog = .load :: .store w :: .unlock :: rest) ∨
     (s.threads t).prog = .unlock :: rest ∨
     (∃ w, (s.threads t).prog = .store w :: .unlock :: rest ∧
       (s.threads t).loaded = some s.store)))

/-- What holds of the shared store at every moment of every run. -/
def Invariant (c : Cmdline) (ops : Nat → List Op) (s : Shared) : Prop :=
  s.store = applyLog c s.log ∧
  (∀ t, ThreadOK s t) ∧
  (∀ t x, (s.threads t).loaded = some x →
    ∃ n, n ≤ s.log.length ∧ x = applyLog c (s.log.take n)) ∧
  (∀ t, (s.log.filter (fun e => e.1 = t)).map Prod.snd ++ writesOf (s.threads t).prog =
    (ops t).flatMap Op.writes)

/-- Two callers that each read the slice and then write it with one more value
for key a, without Lock and Unlock around the two steps. -/
def unlockedAppends : Shared :=
  { store := { Parameters := [] }, owner := none, log := [],
    threads := fun t =>
      if t = 0 then { prog := [.load, .store (.append "a".toList "1".toList)], loaded := none }
      else if t = 1 then
        { prog := [.load, .store (.append "a".toList "2".toList)], loaded := none }
      else { prog := [], loaded := none } }

/-- Caller 0 calls AppendAll with the arguments a=1 and b=2, caller 1 calls
Get; nobody else calls. -/
def mergeAndGet : Nat → List Op := fun t =>
  if t = 0 then [Op.appendAll ["a=1".toList, "b=2".toList] []]
  else if t = 1 then [Op.get "a".toList]
  else []

/-! ## Theorems: the library functions -/

theorem fieldsFrom_append_word (t : Str) (ht : ∀ c ∈ t, isSpace c = false) :
    ∀ (cur rest : Str), fieldsFrom cur (t ++ rest) = fieldsFrom (cur ++ t) rest := by
  induction t with
  | nil => intro cur rest; simp
  | cons c t ih =>
    intro cur rest
    have hc : isSpace c = false := ht c (List.mem_cons_self _ _)
    have ht1 : ∀ d ∈ t, isSpace d = false := fun d hd => ht d (List.mem_cons_of_mem _ hd)
    show fieldsFrom cur (c :: (t ++ rest)) = _
    rw [fieldsFrom]
    simp only [hc, Bool.false_eq_true, if_false]
    rw [ih ht1]
    simp

theorem fieldsFrom_space (cur rest : Str) (c : Char) (hc : isSpace c = true) (hcur : cur ≠ []) :
    fieldsFrom cur (c :: rest) = cur :: fieldsFrom [] rest := by
  simp [fieldsFrom, hc, hcur]

theorem Fields_space (rest : Str) (c : Char) (hc : isSpace c = true) :
    Fields (c :: rest) = Fields rest := by
  simp [Fields, fieldsFrom, hc]

theorem Fields_word_space (t rest : Str) (c : Char) (ht : IsWord t) (hc : isSpace c = true) :
    Fields (t ++ c :: rest) = t :: Fields rest := by
  unfold Fields
  rw [fieldsFrom_append_word t ht.2, List.nil_append, fieldsFrom_space _ _ _ hc ht.1]

theorem Fields_word (t : Str) (ht : IsWord t) : Fields t = [t] := by
  have h := fieldsFrom_append_word t ht.2 [] []
  simp only [List.append_nil, List.nil_append] at h
  unfold Fields
  rw [h]
  simp [fieldsFrom, ht.1]

theorem Fields_nil : Fields [] = [] := by
  simp [Fields, fieldsFrom]

/-- Fields of single-space joined words gives the words back. -/
theorem Fields_Join (toks : List Str) (h : ∀ t ∈ toks, IsWord t) :
    Fields (Join toks [' ']) = toks := by
  induction toks with
  | nil => simp [Join, List.intercalate, Fields_nil]
  | cons t ts ih =>
    have ht : IsWord t := h t (List.mem_cons_self _ _)
    have hts : ∀ u ∈ ts, IsWord u := fun u hu => h u (List.mem_cons_of_mem _ hu)
    cases ts with
    | nil => simpa [Join, List.intercalate] using Fields_word t ht
    | cons u us =>
      have e : Join (t :: u :: us) [' '] = t ++ ' ' :: Join (u :: us) [' '] := by
        simp [Join, List.intercalate, List.intersperse]
      rw [e, Fields_word_space t _ ' ' ht (by decide), ih hts]

theorem fieldsFrom_words : ∀ (s cur : Str), (∀ c ∈ cur, isSpace c = false) →
    ∀ t ∈ fieldsFrom cur s, IsWord t := by
  intro s
  induction s with
  | nil =>
    intro cur hcur t ht
    by_cases hc : cur = []
    · simp [fieldsFrom, hc] at ht
    · simp [fieldsFrom, hc] at ht
      subst ht
      exact ⟨hc, hcur⟩
  | cons c cs ih =>
    intro cur hcur t ht
    by_cases hsp : isSpace c = true
    · by_cases hc : cur = []
      · simp [fieldsFrom, hsp, hc] at ht
        exact ih [] (by simp) t ht
      · simp [fieldsFrom, hsp, hc] at ht
        rcases ht with ht | ht
        · subst ht; exact ⟨hc, hcur⟩
        · exact ih [] (by simp) t ht
    · have hsp1 : isSpace c = false := by simpa using hsp
      simp [fieldsFrom, hsp1] at ht
      refine ih (cur ++ [c]) ?_ t ht
      intro d hd
      rcases List.mem_append.1 hd with hd | hd
      · exact hcur d hd
      · simp at hd; subst hd; exact hsp1

/-- Every field is a token: non-empty and free of white space. -/
theorem Fields_words (s : Str) : ∀ t ∈ Fields s, IsWord t :=
  fieldsFrom_words s [] (by simp)

theorem fieldsFrom_snoc_space (c : Char) (hc : isSpace c = true) :
    ∀ (s cur : Str), fieldsFrom cur (s ++ [c]) = fieldsFrom cur s := by
  intro s
  induction s with
  | nil => intro cur; by_cases h : cur = [] <;> simp [fieldsFrom, hc, h]
  | cons d ds ih =>
    intro cur
    by_cases hd : isSpace d = true
    · by_cases h : cur = [] <;> simp [fieldsFrom, hd, h, ih]
    · have hd1 : isSpace d = false := by simpa using hd
      simp [fieldsFrom, hd1, ih]

/-- Stripping one trailing newline does not change the fields. -/
theorem Fields_TrimSuffix (s : Str) : Fields (TrimSuffix s [nl]) = Fields s := by
  unfold TrimSuffix
  split
  · rename_i h
    obtain ⟨t, rfl⟩ := h
    simp only [List.length_append, List.length_singleton, Nat.add_sub_cancel,
      List.take_left']
    unfold Fields
    rw [fieldsFrom_snoc_space nl (by decide)]
  · rfl

theorem fieldsFrom_append_space (b : Str) : ∀ (a cur : Str),
    fieldsFrom cur (a ++ ' ' :: b) = fieldsFrom cur a ++ Fields b := by
  intro a
  induction a with
  | nil =>
    intro cur
    by_cases h : cur = [] <;> simp [fieldsFrom, Fields, h, show isSpace ' ' = true by decide]
  | cons d ds ih =>
    intro cur
    by_cases hd : isSpace d = true
    · by_cases h : cur = [] <;> simp [fieldsFrom, hd, h, ih]
    · have hd1 : isSpace d = false := by simpa using hd
      simp [fieldsFrom, hd1, ih]

/-- The fields of arguments joined by single spaces are the fields of the
arguments, in order. -/
theorem Fields_Join_args (args : List Str) : Fields (Join args [' ']) = argTokens args := by
  induction args with
  | nil => simp [Join, List.intercalate, Fields_nil, argTokens]
  | cons a rest ih =>
    cases rest with
    | nil => simp [Join, List.intercalate, argTokens, tokens]
    | cons b more =>
      have e : Join (a :: b :: more) [' '] = a ++ ' ' :: Join (b :: more) [' '] := by
        simp [Join, List.intercalate, List.intersperse]
      have e2 : Fields (a ++ ' ' :: Join (b :: more) [' ']) =
          Fields a ++ Fields (Join (b :: more) [' ']) := fieldsFrom_append_space _ a []
      rw [e, e2, ih]
      simp [argTokens, tokens]

/-! ## Theorems: insert and parse -/

theorem SplitN2_eq (arg : Str) :
    SplitN2 arg '=' = [tokenKey arg] ∧ tokenValue arg = [] ∨
    SplitN2 arg '=' = [tokenKey arg, tokenValue arg] := by
  unfold SplitN2 tokenKey tokenValue
  cases h : arg.dropWhile (fun c => c != '=') with
  | nil =>
    left
    have e := List.takeWhile_append_dropWhile (fun c => c != '=') arg
    rw [h, List.append_nil] at e
    simp [e]
  | cons d rest => right; simp

/-- The parser is the fold of insert over the pairs carried by the tokens. -/
theorem parse_eq (s : Str) : parse s = insertAll [] ((Fields s).map tokenPair) := by
  unfold parse insertAll
  simp only [Fields_TrimSuffix]
  rw [List.foldl_map]
  congr 1
  funext parsed arg
  rcases SplitN2_eq arg with ⟨h, hv⟩ | h
  · rw [h]; simp [tokenPair, hv]
  · rw [h]; simp [tokenPair]

theorem keys_insert (ps : Parameters) (k v : Str) :
    keys (insert ps k v) = if k ∈ keys ps then keys ps else keys ps ++ [k] := by
  induction ps with
  | nil => simp [insert, keys]
  | cons p rest ih =>
    by_cases h : p.key = k
    · simp [insert, keys, h, Parameter.Append]
    · have h1 : ¬ k = p.key := fun e => h e.symm
      simp only [insert, h, if_false]
      simp only [keys, List.map_cons, List.mem_cons, h1, false_or] at ih ⊢
      rw [ih]
      split <;> simp

theorem find_insert (ps : Parameters) (k v k1 : Str) :
    (insert ps k v).find? (fun p => p.key = k1) =
      if k1 = k then some ⟨k, valuesAt ps k ++ [v]⟩
      else ps.find? (fun p => p.key = k1) := by
  induction ps with
  | nil =>
    by_cases h : k1 = k
    · simp [insert, valuesAt, h]
    · have h1 : ¬ k = k1 := fun e => h e.symm
      simp [insert, h, h1]
  | cons p rest ih =>
    by_cases hp : p.key = k
    · by_cases h : k1 = k
      · subst h
        simp [insert, hp, valuesAt, Parameter.Append, List.find?_cons]
      · have h1 : ¬ k = k1 := fun e => h e.symm
        simp [insert, hp, h, h1, Parameter.Append, List.find?_cons]
    · by_cases h : k1 = k
      · subst h
        simp only [insert, hp, if_false, List.find?_cons, decide_False, if_true] at ih ⊢
        simp only [ih, if_true, valuesAt, List.find?_cons, hp, decide_False]
      · simp only [insert, hp, if_false, List.find?_cons, h] at ih ⊢
        rw [ih]

theorem valuesAt_insert (ps : Parameters) (k v k1 : Str) :
    valuesAt (insert ps k v) k1 = if k1 = k then valuesAt ps k ++ [v] else valuesAt ps k1 := by
  rw [valuesAt, find_insert]
  by_cases h : k1 = k
  · subst h; simp
  · simp [h, valuesAt]

theorem valuesFor_cons (kv : Str × Str) (kvs : List (Str × Str)) (k : Str) :
    valuesFor (kv :: kvs) k = if kv.1 = k then kv.2 :: valuesFor kvs k else valuesFor kvs k := by
  unfold valuesFor
  by_cases h : kv.1 = k <;> simp [List.filter_cons, h]

/-- The lookup of a key after a fold of insert. -/
theorem find_insertAll (kvs : List (Str × Str)) : ∀ (acc : Parameters) (k : Str),
    (insertAll acc kvs).find? (fun p => p.key = k) =
      if k ∈ kvs.map Prod.fst then some ⟨k, valuesAt acc k ++ valuesFor kvs k⟩
      else acc.find? (fun p => p.key = k) := by
  induction kvs with
  | nil => intro acc k; simp [insertAll]
  | cons kv rest ih =>
    intro acc k
    have e : insertAll acc (kv :: rest) = insertAll (insert acc kv.1 kv.2) rest := rfl
    rw [e, ih, valuesAt_insert, find_insert, valuesFor_cons]
    by_cases h1 : k = kv.1
    · subst h1
      by_cases h2 : kv.1 ∈ rest.map Prod.fst
      · simp [h2]
      · simp [h2, valuesFor, List.filter_eq_nil_iff]
        intro a b hab hk
        exact h2 (List.mem_map.2 ⟨(a, b), hab, hk⟩)
    · have h3 : ¬ kv.1 = k := fun e => h1 e.symm
      simp only [h1, h3, if_false, List.map_cons]
      by_cases hm : k ∈ rest.map Prod.fst
      · rw [if_pos hm, if_pos (List.mem_cons_of_mem _ hm)]
      · rw [if_neg hm, if_neg (by rw [List.mem_cons]; exact fun h => h.elim h1 hm)]

theorem keys_insertAll (kvs : List (Str × Str)) : ∀ (acc : Parameters),
    keys (insertAll acc kvs) = addKeys (keys acc) (kvs.map Prod.fst) := by
  induction kvs with
  | nil => intro acc; simp [insertAll, addKeys]
  | cons kv rest ih =>
    intro acc
    have e : insertAll acc (kv :: rest) = insertAll (insert acc kv.1 kv.2) rest := rfl
    rw [e, ih, keys_insert]
    simp [addKeys]

theorem firstIndex_lt_length (ks : List Str) (k : Str) :
    firstIndex ks k < ks.length ↔ k ∈ ks := by
  unfold firstIndex
  rw [List.findIdx_lt_length]
  constructor
  · rintro ⟨x, hx, h⟩
    have e : x = k := by simpa using h
    exact e ▸ hx
  · intro h; exact ⟨k, h, by simp⟩

theorem firstIndex_append_of_mem (ks more : List Str) (k : Str) (h : k ∈ ks) :
    firstIndex (ks ++ more) k = firstIndex ks k := by
  have h1 := (firstIndex_lt_length ks k).2 h
  unfold firstIndex at h1 ⊢
  rw [List.findIdx_append, if_pos h1]

theorem firstIndex_append_self (ks : List Str) (k : Str) (h : k ∉ ks) :
    firstIndex (ks ++ [k]) k = ks.length := by
  have h1 : ¬ firstIndex ks k < ks.length := fun h2 => h ((firstIndex_lt_length ks k).1 h2)
  unfold firstIndex at h1 ⊢
  rw [List.findIdx_append, if_neg h1]
  simp [List.findIdx_cons]

theorem addKeys_snoc (ks T : List Str) (k : Str) :
    addKeys ks (T ++ [k]) = if k ∈ addKeys ks T then addKeys ks T else addKeys ks T ++ [k] := by
  simp [addKeys, List.foldl_append]

theorem mem_addKeys (T : List Str) : ∀ (ks : List Str) (k : Str),
    k ∈ addKeys ks T ↔ k ∈ ks ∨ k ∈ T := by
  induction T with
  | nil => intro ks k; simp [addKeys]
  | cons t T ih =>
    intro ks k
    have e : addKeys ks (t :: T) = addKeys (if t ∈ ks then ks else ks ++ [t]) T := rfl
    rw [e, ih]
    by_cases h : t ∈ ks
    · simp only [h, if_true, List.mem_cons]
      constructor
      · rintro (h1 | h1)
        · exact Or.inl h1
        · exact Or.inr (Or.inr h1)
      · rintro (h1 | h1 | h1)
        · exact Or.inl h1
        · exact Or.inl (h1 ▸ h)
        · exact Or.inr h1
    · simp only [h, if_false, List.mem_append, List.mem_singleton, List.mem_cons]
      tauto

theorem nodup_addKeys (T : List Str) : ∀ (ks : List Str), ks.Nodup → (addKeys ks T).Nodup := by
  induction T with
  | nil => intro ks h; simpa [addKeys] using h
  | cons t T ih =>
    intro ks h
    have e : addKeys ks (t :: T) = addKeys (if t ∈ ks then ks else ks ++ [t]) T := rfl
    rw [e]
    apply ih
    by_cases ht : t ∈ ks
    · simpa [ht] using h
    · simp only [ht, if_false]
      rw [List.nodup_append]
      refine ⟨h, List.nodup_singleton t, ?_⟩
      intro a ha hb
      simp at hb
      exact ht (hb ▸ ha)

/-- Keys collected from the empty list come in the order of first occurrence. -/
theorem firstIndex_addKeys (T : List Str) : ∀ a b, a ∈ T → b ∈ T →
    (firstIndex (addKeys [] T) a < firstIndex (addKeys [] T) b ↔
      firstIndex T a < firstIndex T b) := by
  induction T using List.reverseRecOn with
  | nil => intro a b ha; simp at ha
  | append_singleton T k ih =>
    intro a b ha hb
    have hmem : ∀ x, x ∈ addKeys [] T ↔ x ∈ T := fun x => by simp [mem_addKeys]
    rw [addKeys_snoc]
    by_cases hk : k ∈ T
    · have ha1 : a ∈ T := by
        rcases List.mem_append.1 ha with h | h
        · exact h
        · simp at h; exact h ▸ hk
      have hb1 : b ∈ T := by
        rcases List.mem_append.1 hb with h | h
        · exact h
        · simp at h; exact h ▸ hk
      rw [if_pos ((hmem k).2 hk), firstIndex_append_of_mem _ _ _ ha1,
        firstIndex_append_of_mem _ _ _ hb1]
      exact ih a b ha1 hb1
    · rw [if_neg (fun h => hk ((hmem k).1 h))]
      have hin : ∀ x, x ∈ T →
          firstIndex (addKeys [] T ++ [k]) x = firstIndex (addKeys [] T) x ∧
          firstIndex (T ++ [k]) x = firstIndex T x ∧
          firstIndex (addKeys [] T) x < (addKeys [] T).length ∧ firstIndex T x < T.length := by
        intro x hx
        exact ⟨firstIndex_append_of_mem _ _ _ ((hmem x).2 hx), firstIndex_append_of_mem _ _ _ hx,
          (firstIndex_lt_length _ _).2 ((hmem x).2 hx), (firstIndex_lt_length _ _).2 hx⟩
      have hout : firstIndex (addKeys [] T ++ [k]) k = (addKeys [] T).length ∧
          firstIndex (T ++ [k]) k = T.length :=
        ⟨firstIndex_append_self _ _ (fun h => hk ((hmem k).1 h)), firstIndex_append_self _ _ hk⟩
      have ha2 : a ∈ T ∨ a = k := by simpa using ha
      have hb2 : b ∈ T ∨ b = k := by simpa using hb
      rcases ha2 with ha2 | ha2 <;> rcases hb2 with hb2 | hb2
      · rw [(hin a ha2).1, (hin a ha2).2.1, (hin b hb2).1, (hin b hb2).2.1]
        exact ih a b ha2 hb2
      · subst hb2
        rw [(hin a ha2).1, (hin a ha2).2.1, hout.1, hout.2]
        exact ⟨fun _ => (hin a ha2).2.2.2, fun _ => (hin a ha2).2.2.1⟩
      · subst ha2
        rw [(hin b hb2).1, (hin b hb2).2.1, hout.1, hout.2]
        constructor
        · intro h; exact absurd h (Nat.lt_asymm (hin b hb2).2.2.1)
        · intro h; exact absurd h (Nat.lt_asymm (hin b hb2).2.2.2)
      · subst ha2; subst hb2
        simp

/-- With pairwise distinct keys, an entry is the one found under its key. -/
theorem find_of_mem (ps : Parameters) (h : (keys ps).Nodup) (p : Parameter) (hp : p ∈ ps) :
    ps.find? (fun q => q.key = p.key) = some p := by
  induction ps with
  | nil => simp at hp
  | cons q rest ih =>
    simp only [keys, List.map_cons, List.nodup_cons] at h
    rcases List.mem_cons.1 hp with e | hp1
    · subst e; simp
    · have hne : ¬ q.key = p.key := by
        intro e
        exact h.1 (e ▸ List.mem_map.2 ⟨p, hp1, rfl⟩)
      simp only [List.find?_cons, hne, decide_False]
      exact ih h.2 hp1

theorem mem_of_find (ps : Parameters) (k : Str) (p : Parameter)
    (h : ps.find? (fun q => q.key = k) = some p) : p ∈ ps ∧ p.key = k := by
  refine ⟨List.mem_of_find?_eq_some h, ?_⟩
  have := List.find?_some h
  simpa using this

theorem valuesFor_tokenPair (T : List Str) (k : Str) :
    valuesFor (T.map tokenPair) k = (T.filter (fun t => tokenKey t = k)).map tokenValue := by
  induction T with
  | nil => simp [valuesFor]
  | cons t T ih =>
    rw [List.map_cons, valuesFor_cons, ih]
    by_cases h : tokenKey t = k <;> simp [tokenPair, List.filter_cons, h]

/-! ## Theorems: the store operations -/

theorem setLoop_of_not_mem (ps : Parameters) (k : Str) (p : Parameter) (h : k ∉ keys ps) :
    setLoop ps k p = ps ++ [p] := by
  induction ps with
  | nil => simp [setLoop]
  | cons q rest ih =>
    simp only [keys, List.map_cons, List.mem_cons, not_or] at h
    have hq : ¬ q.key = k := fun e => h.1 e.symm
    simp only [setLoop, hq, if_false, List.cons_append]
    rw [ih h.2]

theorem setLoop_of_mem (ps : Parameters) (k : Str) (p : Parameter) (h : k ∈ keys ps) :
    setLoop ps k p = ps.set (firstIndex (keys ps) k) p := by
  induction ps with
  | nil => simp [keys] at h
  | cons q rest ih =>
    by_cases hq : q.key = k
    · simp [setLoop, hq, firstIndex, keys, List.findIdx_cons]
    · have h1 : k ∈ keys rest := by
        simp only [keys, List.map_cons, List.mem_cons] at h
        rcases h with h | h
        · exact absurd h.symm hq
        · exact h
      simp only [setLoop, hq, if_false]
      rw [ih h1]
      simp [firstIndex, keys, List.findIdx_cons, hq]

theorem insert_of_not_mem (ps : Parameters) (k v : Str) (h : k ∉ keys ps) :
    insert ps k v = ps ++ [⟨k, [v]⟩] := by
  induction ps with
  | nil => simp [insert]
  | cons q rest ih =>
    simp only [keys, List.map_cons, List.mem_cons, not_or] at h
    have hq : ¬ q.key = k := fun e => h.1 e.symm
    simp only [insert, hq, if_false, List.cons_append]
    rw [ih h.2]

theorem appendLoop_of_not_mem (ps : Parameters) (k v : Str) (h : k ∉ keys ps) :
    appendLoop ps k v = none := by
  induction ps with
  | nil => simp [appendLoop]
  | cons q rest ih =>
    simp only [keys, List.map_cons, List.mem_cons, not_or] at h
    have hq : ¬ q.key = k := fun e => h.1 e.symm
    simp only [appendLoop, hq, if_false]
    rw [ih h.2]
    rfl

theorem appendLoop_of_mem (ps : Parameters) (k v : Str) (h : k ∈ keys ps) :
    appendLoop ps k v = some (insert ps k v) := by
  induction ps with
  | nil => simp [keys] at h
  | cons q rest ih =>
    by_cases hq : q.key = k
    · simp [appendLoop, insert, hq]
    · have h1 : k ∈ keys rest := by
        simp only [keys, List.map_cons, List.mem_cons] at h
        rcases h with h | h
        · exact absurd h.symm hq
        · exact h
      simp only [appendLoop, insert, hq, if_false]
      rw [ih h1]
      rfl

/-- Cmdline.Append acts on the entries as insert does. -/
theorem Append_Parameters (c : Cmdline) (k v : Str) :
    (c.Append k v).Parameters = insert c.Parameters k v := by
  unfold Cmdline.Append
  by_cases h : k ∈ keys c.Parameters
  · rw [appendLoop_of_mem _ _ _ h]
  · rw [appendLoop_of_not_mem _ _ _ h]

theorem insert_of_mem (ps : Parameters) (k v : Str) (h : k ∈ keys ps) :
    ∃ q, ps[firstIndex (keys ps) k]? = some q ∧ q.key = k ∧
      insert ps k v = ps.set (firstIndex (keys ps) k) ⟨k, q.values ++ [v]⟩ := by
  induction ps with
  | nil => simp [keys] at h
  | cons q rest ih =>
    by_cases hq : q.key = k
    · refine ⟨q, ?_, hq, ?_⟩
      · simp [firstIndex, keys, List.findIdx_cons, hq]
      · simp [insert, hq, firstIndex, keys, List.findIdx_cons, Parameter.Append]
    · have h1 : k ∈ keys rest := by
        simp only [keys, List.map_cons, List.mem_cons] at h
        rcases h with h | h
        · exact absurd h.symm hq
        · exact h
      obtain ⟨r, hr1, hr2, hr3⟩ := ih h1
      refine ⟨r, ?_, hr2, ?_⟩
      · simpa [firstIndex, keys, List.findIdx_cons, hq] using hr1
      · simp only [insert, hq, if_false]
        rw [hr3]
        simp [firstIndex, keys, List.findIdx_cons, hq]

theorem keys_setLoop (ps : Parameters) (k : Str) (p : Parameter) (hp : p.key = k) :
    keys (setLoop ps k p) = if k ∈ keys ps then keys ps else keys ps ++ [k] := by
  by_cases h : k ∈ keys ps
  · rw [if_pos h]
    induction ps with
    | nil => simp [keys] at h
    | cons q rest ih =>
      by_cases hq : q.key = k
      · simp [setLoop, hq, keys, hp]
      · have h1 : k ∈ keys rest := by
          simp only [keys, List.map_cons, List.mem_cons] at h
          rcases h with h | h
          · exact absurd h.symm hq
          · exact h
        simp only [setLoop, hq, if_false, keys, List.map_cons] at ih ⊢
        rw [ih h1]
  · rw [if_neg h, setLoop_of_not_mem _ _ _ h]
    simp [keys, hp]

theorem nodup_add_key (ks : List Str) (k : Str) (h : ks.Nodup) :
    (if k ∈ ks then ks else ks ++ [k]).Nodup := by
  have := nodup_addKeys [k] ks h
  simpa [addKeys] using this

theorem nodup_Set (c : Cmdline) (k : Str) (p : Parameter) (hp : p.key = k)
    (h : (keys c.Parameters).Nodup) : (keys (c.Set k p).Parameters).Nodup := by
  simp only [Cmdline.Set, keys_setLoop _ _ _ hp]
  exact nodup_add_key _ _ h

theorem nodup_Append (c : Cmdline) (k v : Str)
    (h : (keys c.Parameters).Nodup) : (keys (c.Append k v).Parameters).Nodup := by
  rw [Append_Parameters, keys_insert]
  exact nodup_add_key _ _ h

theorem foldl_invariant {α β : Type} (Inv : α → Prop) (f : α → β → α)
    (hf : ∀ a b, Inv a → Inv (f a b)) : ∀ (l : List β) (a : α), Inv a → Inv (l.foldl f a) := by
  intro l
  induction l with
  | nil => intro a h; exact h
  | cons b l ih => intro a h; exact ih (f a b) (hf a b h)

theorem nodup_SetAll (c : Cmdline) (args : List Str)
    (h : (keys c.Parameters).Nodup) : (keys (c.SetAll args).Parameters).Nodup := by
  unfold Cmdline.SetAll
  exact foldl_invariant (fun c => (keys c.Parameters).Nodup) _
    (fun a p ha => nodup_Set a p.key p rfl ha) _ c h

theorem nodup_AppendAll (c : Cmdline) (args : List Str) (opts : List AppendAllOption)
    (h : (keys c.Parameters).Nodup) : (keys (c.AppendAll args opts).Parameters).Nodup := by
  unfold Cmdline.AppendAll
  refine foldl_invariant (fun c => (keys c.Parameters).Nodup) _ ?_ _ c h
  intro a p ha
  dsimp only
  split
  · exact nodup_Set a p.key p rfl ha
  · exact foldl_invariant (fun c => (keys c.Parameters).Nodup) _
      (fun a v ha => nodup_Append a p.key v ha) _ a ha

theorem nodup_parse (s : Str) : (keys (parse s)).Nodup := by
  rw [parse_eq, keys_insertAll]
  exact nodup_addKeys _ _ List.nodup_nil

theorem find_setLoop (ps : Parameters) (k k1 : Str) (p : Parameter) (hp : p.key = k) :
    (setLoop ps k p).find? (fun q => q.key = k1) =
      if k1 = k then some p else ps.find? (fun q => q.key = k1) := by
  induction ps with
  | nil =>
    by_cases h : k1 = k
    · simp [setLoop, hp, h]
    · have h1 : ¬ k = k1 := fun e => h e.symm
      simp [setLoop, hp, h, h1]
  | cons q rest ih =>
    by_cases hq : q.key = k
    · by_cases h : k1 = k
      · simp [setLoop, hq, h, hp]
      · have h1 : ¬ k = k1 := fun e => h e.symm
        simp [setLoop, hq, h, h1, hp, List.find?_cons]
    · by_cases h : k1 = k
      · subst h
        simp only [setLoop, hq, if_false, List.find?_cons, decide_False, if_true] at ih ⊢
        exact ih
      · simp only [setLoop, hq, if_false, List.find?_cons, h] at ih ⊢
        rw [ih]

theorem foldl_Append (vs : List Str) (k : Str) : ∀ (c : Cmdline),
    (vs.foldl (fun c v => c.Append k v) c).Parameters =
      insertAll c.Parameters (vs.map (fun v => (k, v))) := by
  induction vs with
  | nil => intro c; simp [insertAll]
  | cons v vs ih =>
    intro c
    simp only [List.foldl_cons, List.map_cons]
    rw [ih, Append_Parameters]
    rfl

theorem valuesFor_const (vs : List Str) (k : Str) :
    valuesFor (vs.map (fun v => (k, v))) k = vs := by
  induction vs with
  | nil => simp [valuesFor]
  | cons v vs ih => rw [List.map_cons, valuesFor_cons, ih]; simp

/-- The lookup of a key after one step of the merge loop of AppendAll. -/
theorem find_mergeStep (O : List Str) (c : Cmdline) (p : Parameter) (k1 : Str) :
    (mergeStep O c p).Parameters.find? (fun q => q.key = k1) =
      if k1 = p.key then
        (if p.key ∈ O then some p
         else if p.values = [] then c.Parameters.find? (fun q => q.key = k1)
         else some ⟨p.key, valuesAt c.Parameters p.key ++ p.values⟩)
      else c.Parameters.find? (fun q => q.key = k1) := by
  unfold mergeStep
  by_cases hO : p.key ∈ O
  · have h1 : O.any (fun key => key == p.key) = true := by
      simp only [List.any_eq_true, beq_iff_eq]
      exact ⟨p.key, hO, rfl⟩
    simp only [h1, if_true, Cmdline.Set, hO]
    rw [find_setLoop _ _ _ _ rfl]
  · have h1 : ¬ (O.any (fun key => key == p.key) = true) := by
      simp only [List.any_eq_true, beq_iff_eq, not_exists, not_and]
      intro x hx e
      exact hO (e ▸ hx)
    simp only [h1, if_false, hO, Bool.false_eq_true]
    rw [foldl_Append, find_insertAll]
    by_cases hk : k1 = p.key
    · subst hk
      by_cases hv : p.values = []
      · simp [hv]
      · have hm : p.key ∈ (p.values.map (fun v => (p.key, v))).map Prod.fst := by
          cases hvs : p.values with
          | nil => exact absurd hvs hv
          | cons v vs => simp
        rw [if_pos hm, valuesFor_const]
        simp [hv]
    · have hm : ¬ k1 ∈ (p.values.map (fun v => (p.key, v))).map Prod.fst := by
        simp only [List.map_map, List.mem_map, Function.comp, not_exists, not_and]
        intro x _ e
        exact hk e.symm
      rw [if_neg hm, if_neg hk]

theorem find_foldl_mergeStep_other (O : List Str) (P : Parameters) :
    ∀ (c : Cmdline) (k : Str), k ∉ keys P →
      (P.foldl (mergeStep O) c).Parameters.find? (fun q => q.key = k) =
        c.Parameters.find? (fun q => q.key = k) := by
  induction P with
  | nil => intro c k _; rfl
  | cons p rest ih =>
    intro c k hk
    simp only [keys, List.map_cons, List.mem_cons, not_or] at hk
    rw [List.foldl_cons, ih _ _ hk.2, find_mergeStep, if_neg hk.1]

/-- The lookup, after the merge loop, of the key of a parsed parameter. -/
theorem find_foldl_mergeStep (O : List Str) (P : Parameters) :
    ∀ (c : Cmdline), (keys P).Nodup → ∀ p ∈ P, p.values ≠ [] →
      (P.foldl (mergeStep O) c).Parameters.find? (fun q => q.key = p.key) =
        some (if p.key ∈ O then p else ⟨p.key, valuesAt c.Parameters p.key ++ p.values⟩) := by
  induction P with
  | nil => intro c _ p hp; simp at hp
  | cons q rest ih =>
    intro c hnd p hp hv
    simp only [keys, List.map_cons, List.nodup_cons] at hnd
    rw [List.foldl_cons]
    rcases List.mem_cons.1 hp with e | hp1
    · subst e
      rw [find_foldl_mergeStep_other _ _ _ _ hnd.1, find_mergeStep]
      by_cases hO : p.key ∈ O <;> simp [hO, hv]
    · have hne : ¬ p.key = q.key := by
        intro e
        exact hnd.1 (e ▸ List.mem_map.2 ⟨p, hp1, rfl⟩)
      rw [ih _ hnd.2 p hp1 hv]
      have e : valuesAt (mergeStep O c q).Parameters p.key = valuesAt c.Parameters p.key := by
        unfold valuesAt
        rw [find_mergeStep, if_neg hne]
      rw [e]

theorem AppendAll_eq (c : Cmdline) (args O : List Str) :
    c.AppendAll args [WithOverwriteArgs O] = (parse (Join args [' '])).foldl (mergeStep O) c := by
  unfold Cmdline.AppendAll
  simp only [WithOverwriteArgs, List.foldl_cons, List.foldl_nil, List.nil_append]
  rfl

/-- The entry that parse builds for a key carried by some token. -/
theorem find_parse (s : Str) (k : Str) (h : k ∈ (tokens s).map tokenKey) :
    (parse s).find? (fun q => q.key = k) =
      some ⟨k, ((tokens s).filter (fun t => tokenKey t = k)).map tokenValue⟩ ∧
    ((tokens s).filter (fun t => tokenKey t = k)).map tokenValue ≠ [] := by
  have hm : k ∈ ((Fields s).map tokenPair).map Prod.fst := by
    simpa [tokens, tokenPair, List.map_map, Function.comp] using h
  constructor
  · rw [parse_eq, find_insertAll, if_pos hm, valuesFor_tokenPair]
    simp [valuesAt, tokens]
  · obtain ⟨t, ht, hk⟩ := List.mem_map.1 h
    intro e
    have : t ∈ (tokens s).filter (fun t => tokenKey t = k) := by
      simp [List.mem_filter, ht, hk]
    rw [List.map_eq_nil_iff] at e
    rw [e] at this
    simp at this

/-! ## Theorems: tokens and the serializer -/

theorem tokenKey_append_tokenValue (t : Str) (h : '=' ∈ t) :
    tokenKey t ++ '=' :: tokenValue t = t := by
  unfold tokenKey tokenValue
  have e := List.takeWhile_append_dropWhile (fun c => c != '=') t
  cases hd : t.dropWhile (fun c => c != '=') with
  | nil =>
    rw [hd, List.append_nil] at e
    have : '=' ∈ t.takeWhile (fun c => c != '=') := by rw [e]; exact h
    have := List.mem_takeWhile_imp this
    simp at this
  | cons d rest =>
    have hd1 : d = '=' := by
      have := List.head_dropWhile_not (fun c => c != '=') t (by rw [hd]; simp)
      simp only [hd, List.head_cons] at this
      simpa using this
    rw [hd] at e
    rw [hd1] at e
    simpa using e

theorem tokenKey_of_not_mem (t : Str) (h : '=' ∉ t) : tokenKey t = t ∧ tokenValue t = [] := by
  unfold tokenKey tokenValue
  have h1 : ∀ c ∈ t, (c != '=') = true := by
    intro c hc
    simp only [bne_iff_ne, ne_eq]
    intro e
    exact h (e ▸ hc)
  have e1 : t.takeWhile (fun c => c != '=') = t := List.takeWhile_eq_self_iff.2 h1
  have e2 : t.dropWhile (fun c => c != '=') = [] := List.dropWhile_eq_nil_iff.2 h1
  rw [e1, e2]
  simp

theorem not_mem_tokenKey (t : Str) : '=' ∉ tokenKey t := by
  intro h
  have := List.mem_takeWhile_imp h
  simp at this

/-- Writing a pair as a token and reading the token gives the pair back. -/
theorem tokenPair_tokenOf (k v : Str) (hk : '=' ∉ k) : tokenPair (tokenOf k v) = (k, v) := by
  have h1 : ∀ c ∈ k, (c != '=') = true := by
    intro c hc
    simp only [bne_iff_ne, ne_eq]
    intro e
    exact hk (e ▸ hc)
  unfold tokenOf
  by_cases hv : v = []
  · subst hv
    simp only [if_true, tokenPair]
    rw [(tokenKey_of_not_mem k hk).1, (tokenKey_of_not_mem k hk).2]
  · simp only [hv, if_false, tokenPair, tokenKey, tokenValue, List.append_assoc]
    rw [List.takeWhile_append_of_pos h1, List.dropWhile_append_of_pos h1]
    simp

/-- The token written for the pair of a token is the token as written back. -/
theorem tokenOf_tokenPair (t : Str) : tokenOf (tokenKey t) (tokenValue t) = written t := by
  unfold tokenOf written
  by_cases hv : tokenValue t = []
  · simp [hv]
  · simp only [hv, if_false]
    by_cases h : '=' ∈ t
    · simpa using tokenKey_append_tokenValue t h
    · exact absurd (tokenKey_of_not_mem t h).2 hv

theorem written_eq_self (t : Str) (h : '=' ∈ t → tokenValue t ≠ []) : written t = t := by
  unfold written
  by_cases hv : tokenValue t = []
  · rw [if_pos hv]
    by_cases he : '=' ∈ t
    · exact absurd hv (h he)
    · exact (tokenKey_of_not_mem t he).1
  · rw [if_neg hv]

theorem tokenPair_written (t : Str) : tokenPair (written t) = tokenPair t := by
  rw [← tokenOf_tokenPair, tokenPair_tokenOf _ _ (not_mem_tokenKey t)]
  rfl

/-- A token other than the lone equals sign is written back as a token. -/
theorem IsWord_written (t : Str) (ht : IsWord t) (hne : t ≠ ['=']) : IsWord (written t) := by
  unfold written
  by_cases hv : tokenValue t = []
  · rw [if_pos hv]
    constructor
    · intro hk
      by_cases he : '=' ∈ t
      · have := tokenKey_append_tokenValue t he
        rw [hk, hv] at this
        exact hne this.symm
      · rw [(tokenKey_of_not_mem t he).1] at hk
        exact ht.1 hk
    · intro c hc
      exact ht.2 c ((List.takeWhile_sublist _).subset hc)
  · rw [if_neg hv]; exact ht

theorem foldl_values_render (k : Str) (vs : List Str) : ∀ (s : Str),
    vs.foldl (fun s val =>
      if val = [] then s ++ k ++ [' '] else s ++ k ++ ['='] ++ val ++ [' ']) s =
    s ++ (vs.map (tokenOf k)).flatMap (fun w => w ++ [' ']) := by
  induction vs with
  | nil => intro s; simp
  | cons v vs ih =>
    intro s
    rw [List.foldl_cons, ih]
    by_cases hv : v = [] <;> simp [tokenOf, hv]

/-- The text built by the loops of String: every emitted token followed by
one space. -/
theorem render_eq (ps : Parameters) :
    ps.render = (emitted ps).flatMap (fun w => w ++ [' ']) := by
  have h : ∀ (ps : Parameters) (s : Str),
      ps.foldl (fun s v =>
        v.values.foldl (fun s val =>
          if val = [] then s ++ v.key ++ [' '] else s ++ v.key ++ ['='] ++ val ++ [' ']) s) s =
      s ++ (emitted ps).flatMap (fun w => w ++ [' ']) := by
    intro ps
    induction ps with
    | nil => intro s; simp [emitted]
    | cons p rest ih =>
      intro s
      rw [List.foldl_cons, foldl_values_render, ih]
      simp [emitted, List.append_assoc]
  simpa [Parameters.render] using h ps []

theorem Join_concat (W : List Str) (w : Str) :
    Join (W ++ [w]) [' '] = W.flatMap (fun x => x ++ [' ']) ++ w := by
  induction W with
  | nil => simp [Join, List.intercalate]
  | cons a W ih =>
    have e : Join (a :: (W ++ [w])) [' '] = a ++ ' ' :: Join (W ++ [w]) [' '] := by
      cases W with
      | nil => simp [Join, List.intercalate, List.intersperse]
      | cons b more => simp [Join, List.intercalate, List.intersperse]
    rw [List.cons_append, e, ih]
    simp

/-- Trimming the spaces at the end of tokens each followed by a space leaves
the tokens joined by single spaces. -/
theorem TrimRight_words (W : List Str) (h : ∀ w ∈ W, IsWord w) :
    TrimRight (W.flatMap (fun x => x ++ [' '])) [' '] = Join W [' '] := by
  rcases List.eq_nil_or_concat W with e | ⟨W1, w, e⟩
  · subst e; simp [TrimRight, Join, List.intercalate]
  · rw [List.concat_eq_append] at e
    subst e
    have hw : IsWord w := h w (by simp)
    rw [Join_concat]
    simp only [List.flatMap_append, List.flatMap_cons, List.flatMap_nil, List.append_nil]
    unfold TrimRight
    rw [← List.append_assoc, List.rdropWhile_concat_pos _ _ _ (by simp)]
    rcases List.eq_nil_or_concat w with e | ⟨w1, c, e⟩
    · exact absurd e hw.1
    · rw [List.concat_eq_append] at e
      subst e
      rw [← List.append_assoc]
      apply List.rdropWhile_concat_neg
      have hc : isSpace c = false := hw.2 c (by simp)
      intro hcc
      have : c = ' ' := by simpa using hcc
      rw [this] at hc
      exact absurd hc (by decide)

/-- The serialization of entries whose emitted tokens are tokens. -/
theorem String_eq_Join (ps : Parameters) (h : ∀ w ∈ emitted ps, IsWord w) :
    ps.String = Join (emitted ps) [' '] := by
  unfold Parameters.String
  rw [render_eq, TrimRight_words _ h]

/-! ## Theorems: the pairs held by a parsed store -/

theorem insertAll_snoc (acc : Parameters) (kvs : List (Str × Str)) (kv : Str × Str) :
    insertAll acc (kvs ++ [kv]) = insert (insertAll acc kvs) kv.1 kv.2 := by
  simp [insertAll, List.foldl_append]

theorem values_insert (ps : Parameters) (k v : Str) (h : ∀ p ∈ ps, p.values ≠ []) :
    ∀ p ∈ insert ps k v, p.values ≠ [] := by
  induction ps with
  | nil => intro p hp; simp [insert] at hp; subst hp; simp
  | cons q rest ih =>
    have hrest : ∀ p ∈ rest, p.values ≠ [] := fun p hp => h p (List.mem_cons_of_mem _ hp)
    intro p hp
    by_cases hq : q.key = k
    · simp only [insert, hq, if_true, List.mem_cons] at hp
      rcases hp with e | hp
      · subst e; simp [Parameter.Append]
      · exact hrest p hp
    · simp only [insert, hq, if_false, List.mem_cons] at hp
      rcases hp with e | hp
      · subst e; exact h p (List.mem_cons_self _ _)
      · exact ih hrest p hp

theorem values_insertAll (kvs : List (Str × Str)) :
    ∀ p ∈ insertAll [] kvs, p.values ≠ [] := by
  induction kvs using List.reverseRecOn with
  | nil => intro p hp; simp [insertAll] at hp
  | append_singleton kvs kv ih =>
    rw [insertAll_snoc]
    exact values_insert _ _ _ ih

theorem insert_append_of_not_mem (ps rest : Parameters) (k v : Str) (h : k ∉ keys ps) :
    insert (ps ++ rest) k v = ps ++ insert rest k v := by
  induction ps with
  | nil => rfl
  | cons q qs ih =>
    simp only [keys, List.map_cons, List.mem_cons, not_or] at h
    have hq : ¬ q.key = k := fun e => h.1 e.symm
    show insert (q :: (qs ++ rest)) k v = q :: (qs ++ insert rest k v)
    rw [insert]
    simp only [hq, if_false]
    rw [ih h.2]

theorem Adjacent_iff (ks : List Str) :
    Adjacent ks ↔ ∀ (i j l : Nat) (k : Str), i < j → j < l →
      ks[i]? = some k → ks[l]? = some k → ks[j]? = some k := by
  constructor
  · intro h i j l k hij hjl hi hl
    have hl1 : l < ks.length := (List.getElem?_eq_some_iff.1 hl).1
    have := h l hl1 j hjl i hij (hi.trans hl.symm)
    rw [this, hl]
  · intro h l hl j hjl i hij e
    have hl2 : ks[l]? = some ks[l] := List.getElem?_eq_getElem hl
    rw [hl2] at e ⊢
    exact h i j l _ hij hjl e hl2

theorem Adjacent_of_snoc (ks : List Str) (k : Str) (h0 : Adjacent (ks ++ [k])) :
    Adjacent ks ∧ (k ∈ ks → ks.getLast? = some k) := by
  have h := (Adjacent_iff _).1 h0
  rw [Adjacent_iff]
  constructor
  · intro i j l x hij hjl hi hl
    have hl1 : l < ks.length := (List.getElem?_eq_some_iff.1 hl).1
    have hj1 : j < ks.length := Nat.lt_trans hjl hl1
    have hi1 : i < ks.length := Nat.lt_trans hij hj1
    have := h i j l x hij hjl (by rw [List.getElem?_append_left hi1]; exact hi)
      (by rw [List.getElem?_append_left hl1]; exact hl)
    rw [List.getElem?_append_left hj1] at this
    exact this
  · intro hk
    obtain ⟨i, hi⟩ := List.mem_iff_getElem?.1 hk
    have hi1 : i < ks.length := (List.getElem?_eq_some_iff.1 hi).1
    rw [List.getLast?_eq_getElem?]
    by_cases e : i = ks.length - 1
    · rw [← e]; exact hi
    · have hlt : i < ks.length - 1 := by omega
      have := h i (ks.length - 1) ks.length k hlt (by omega)
        (by rw [List.getElem?_append_left hi1]; exact hi)
        (by rw [List.getElem?_append_right (Nat.le_refl _)]; simp)
      rw [List.getElem?_append_left (by omega)] at this
      exact this

theorem Adjacent_of_nodup (ks : List Str) (h : ks.Nodup) : Adjacent ks := by
  rw [Adjacent_iff]
  intro i j l k hij hjl hi hl
  have hl1 : l < ks.length := (List.getElem?_eq_some_iff.1 hl).1
  have hne := List.nodup_iff_getElem?_ne_getElem?.1 h i l (Nat.lt_trans hij hjl) hl1
  exact absurd (hi.trans hl.symm) hne

theorem pairsOf_append (ps qs : Parameters) : pairsOf (ps ++ qs) = pairsOf ps ++ pairsOf qs := by
  simp [pairsOf]

/-- When all occurrences of a key are next to each other, the pairs held by
the fold of insert are the pairs it was given, in the order given. -/
theorem pairsOf_insertAll (kvs : List (Str × Str)) (h : Adjacent (kvs.map Prod.fst)) :
    pairsOf (insertAll [] kvs) = kvs := by
  induction kvs using List.reverseRecOn with
  | nil => simp [insertAll, pairsOf]
  | append_singleton kvs kv ih =>
    rw [List.map_append, List.map_singleton] at h
    obtain ⟨hadj, hlast⟩ := Adjacent_of_snoc _ _ h
    have ih1 := ih hadj
    rw [insertAll_snoc]
    have hkeys : keys (insertAll [] kvs) = addKeys [] (kvs.map Prod.fst) := by
      rw [keys_insertAll]; rfl
    by_cases hk : kv.1 ∈ kvs.map Prod.fst
    · have hlast1 := hlast hk
      have hne : insertAll [] kvs ≠ [] := by
        intro e
        rw [e] at ih1
        rw [← ih1] at hk
        simp [pairsOf] at hk
      rcases List.eq_nil_or_concat (insertAll [] kvs) with e | ⟨ps0, p, e⟩
      · exact absurd e hne
      · rw [List.concat_eq_append] at e
        have hpv : p.values ≠ [] := values_insertAll kvs p (by rw [e]; simp)
        have hnd : (keys (ps0 ++ [p])).Nodup := by
          rw [← e, hkeys]; exact nodup_addKeys _ _ List.nodup_nil
        have hpk : p.key = kv.1 := by
          have e1 : pairsOf (ps0 ++ [p]) = kvs := by rw [← e]; exact ih1
          rw [pairsOf_append] at e1
          have e2 : (kvs.map Prod.fst).getLast? = some p.key := by
            rw [← e1, List.map_append, List.getLast?_append]
            rcases List.eq_nil_or_concat p.values with ev | ⟨vs, v, ev⟩
            · exact absurd ev hpv
            · rw [List.concat_eq_append] at ev
              simp [pairsOf, ev]
          rw [hlast1] at e2
          exact (Option.some.inj e2).symm
        have hnot : kv.1 ∉ keys ps0 := by
          simp only [keys, List.map_append, List.map_cons, List.map_nil] at hnd
          rw [List.nodup_append] at hnd
          intro hmem
          exact hnd.2.2 hmem (by simp [hpk])
        rw [e, insert_append_of_not_mem _ _ _ _ hnot]
        have e3 : insert [p] kv.1 kv.2 = [p.Append kv.2] := by simp [insert, hpk]
        rw [e3, pairsOf_append, ← ih1, e, pairsOf_append]
        simp [pairsOf, Parameter.Append, hpk]
    · have hnot : kv.1 ∉ keys (insertAll [] kvs) := by
        rw [hkeys, mem_addKeys]; simpa using hk
      rw [insert_of_not_mem _ _ _ hnot, pairsOf_append, ih1]
      simp [pairsOf]

theorem emitted_eq (ps : Parameters) :
    emitted ps = (pairsOf ps).map (fun kv => tokenOf kv.1 kv.2) := by
  simp only [emitted, pairsOf, List.map_flatMap, List.map_map]
  rfl

/-- When all occurrences of a key are next to each other among the tokens,
the serializer writes the tokens back in their order. -/
theorem emitted_parse_of_adjacent (s : Str) (h : Adjacent ((tokens s).map tokenKey)) :
    emitted (parse s) = (tokens s).map written := by
  have h1 : Adjacent (((Fields s).map tokenPair).map Prod.fst) := by
    simpa [tokens, tokenPair, List.map_map, Function.comp] using h
  rw [emitted_eq, parse_eq, pairsOf_insertAll _ h1, List.map_map]
  apply List.map_congr_left
  intro t _
  exact tokenOf_tokenPair t

/-! ## Theorems: the tokens written for a parsed store -/

theorem valuesAt_insertAll_nil (kvs : List (Str × Str)) (k : Str) :
    valuesAt (insertAll [] kvs) k = valuesFor kvs k := by
  unfold valuesAt
  rw [find_insertAll]
  by_cases h : k ∈ kvs.map Prod.fst
  · simp [h, valuesAt]
  · simp only [h, if_false, List.find?_nil]
    symm
    simp only [valuesFor, List.map_eq_nil_iff, List.filter_eq_nil_iff, decide_eq_true_eq]
    intro kv hkv e
    exact h (List.mem_map.2 ⟨kv, hkv, e⟩)

/-- The value list of an entry of a parsed store. -/
theorem values_parse (s : Str) (p : Parameter) (hp : p ∈ parse s) :
    p.values = ((tokens s).filter (fun t => tokenKey t = p.key)).map tokenValue := by
  have hf := find_of_mem _ (nodup_parse s) p hp
  have hv := valuesAt_insertAll_nil ((Fields s).map tokenPair) p.key
  rw [← parse_eq, valuesFor_tokenPair] at hv
  simp only [tokens]
  rw [← hv]
  simp [valuesAt, hf]

theorem keys_parse (s : Str) : keys (parse s) = addKeys [] ((tokens s).map tokenKey) := by
  simp only [parse_eq, keys_insertAll, tokens, List.map_map]
  rfl

theorem key_parse (s : Str) (p : Parameter) (hp : p ∈ parse s) :
    p.key ∈ (tokens s).map tokenKey := by
  have : p.key ∈ keys (parse s) := List.mem_map.2 ⟨p, hp, rfl⟩
  rw [keys_parse, mem_addKeys] at this
  simpa using this

/-- Every token written for a parsed store is an input token as written back. -/
theorem emitted_parse_mem (s : Str) (w : Str) (hw : w ∈ emitted (parse s)) :
    ∃ t ∈ tokens s, w = written t := by
  simp only [emitted, List.mem_flatMap, List.mem_map] at hw
  obtain ⟨p, hp, v, hv, rfl⟩ := hw
  rw [values_parse s p hp] at hv
  obtain ⟨t, ht, rfl⟩ := List.mem_map.1 hv
  have ht1 := List.mem_filter.1 ht
  have hk : tokenKey t = p.key := by simpa using ht1.2
  exact ⟨t, ht1.1, by rw [← hk, tokenOf_tokenPair]⟩

theorem valuesAt_of_not_mem (ps : Parameters) (k : Str) (h : k ∉ keys ps) :
    valuesAt ps k = [] := by
  have : ps.find? (fun p => p.key = k) = none := by
    rw [List.find?_eq_none]
    intro p hp e
    exact h (List.mem_map.2 ⟨p, hp, by simpa using e⟩)
  simp [valuesAt, this]

/-- The written tokens that carry key k are those of the entry with key k. -/
theorem emitted_filter (ps : Parameters) (k : Str) (hnd : (keys ps).Nodup)
    (hk : ∀ p ∈ ps, '=' ∉ p.key) :
    (emitted ps).filter (fun t => tokenKey t = k) = (valuesAt ps k).map (tokenOf k) := by
  induction ps with
  | nil => simp [emitted, valuesAt]
  | cons q rest ih =>
    simp only [keys, List.map_cons, List.nodup_cons] at hnd
    have hq : '=' ∉ q.key := hk q (List.mem_cons_self _ _)
    have hrest : ∀ p ∈ rest, '=' ∉ p.key := fun p hp => hk p (List.mem_cons_of_mem _ hp)
    have e : emitted (q :: rest) = q.values.map (tokenOf q.key) ++ emitted rest := by
      simp [emitted]
    have hkey : ∀ v, tokenKey (tokenOf q.key v) = q.key := fun v =>
      congrArg Prod.fst (tokenPair_tokenOf q.key v hq)
    rw [e, List.filter_append, ih hnd.2 hrest]
    by_cases h : q.key = k
    · have e1 : (q.values.map (tokenOf q.key)).filter (fun t => tokenKey t = k) =
          q.values.map (tokenOf q.key) := by
        rw [List.filter_eq_self]
        intro w hw
        obtain ⟨v, _, rfl⟩ := List.mem_map.1 hw
        simpa [hkey] using h
      have e2 : valuesAt rest k = [] := valuesAt_of_not_mem _ _ (h ▸ hnd.1)
      rw [e1, e2]
      simp [valuesAt, h]
    · have e1 : (q.values.map (tokenOf q.key)).filter (fun t => tokenKey t = k) = [] := by
        rw [List.filter_eq_nil_iff]
        intro w hw
        obtain ⟨v, _, rfl⟩ := List.mem_map.1 hw
        simpa [hkey] using h
      rw [e1]
      simp [valuesAt, h]

/-! ## Theorems: the accessors of Parameter -/

theorem Parameter_Get_nil (idx : Int) : Parameter.Get none idx = Except.ok none := rfl

/-- Get with an index that is not negative: the value at the index, or the
absent result when the index is past the end. -/
theorem Parameter_Get_of_nonneg (p : Parameter) (n : Nat) :
    Parameter.Get (some p) (n : Int) = Except.ok (p.values.get? n) := by
  unfold Parameter.Get
  by_cases h : n < p.values.length
  · have h1 : (p.values.length : Int) > (n : Int) := by exact_mod_cast h
    have h2 : (0 : Int) ≤ (n : Int) ∧ (n : Int) < (p.values.length : Int) :=
      ⟨Int.ofNat_nonneg n, h1⟩
    simp only [h1, if_true, index, h2, and_self, Int.toNat_ofNat]
    rw [List.get?_eq_get h]
    rfl
  · have h1 : ¬ (p.values.length : Int) > (n : Int) := by
      intro h2
      exact h (by exact_mod_cast h2)
    simp only [h1, if_false]
    rw [List.get?_eq_none.2 (Nat.le_of_not_lt h)]

/-- Get with a negative index on a non-nil receiver faults. -/
theorem Parameter_Get_of_neg (p : Parameter) (idx : Int) (h : idx < 0) :
    Parameter.Get (some p) idx = Except.error Fault.indexOutOfRange := by
  unfold Parameter.Get
  have h1 : (p.values.length : Int) > idx :=
    lt_of_lt_of_le h (Int.ofNat_nonneg p.values.length)
  have h2 : ¬ (0 ≤ idx ∧ idx < (p.values.length : Int)) := fun h3 => absurd h3.1 (not_le.2 h)
  show (if (p.values.length : Int) > idx then (index p.values idx).map some
    else Except.ok none) = _
  rw [if_pos h1]
  unfold index
  rw [if_neg h2]
  rfl

/-- First never faults: it is the first value when there is one. -/
theorem Parameter_First_eq (v : Option Parameter) :
    Parameter.First v = Except.ok (v.bind (fun p => p.values.head?)) := by
  cases v with
  | none => rfl
  | some p =>
    cases hv : p.values with
    | nil => simp [Parameter.First, hv]
    | cons x xs =>
      have hc : (0 : Int) ≤ 0 ∧ (0 : Int) < ((xs.length + 1 : Nat) : Int) :=
        ⟨le_refl 0, by exact_mod_cast Nat.succ_pos xs.length⟩
      simp only [Parameter.First, hv, List.length_cons, Nat.zero_lt_succ, if_true, index,
        Option.bind, List.head?_cons]
      rw [if_pos hc]
      rfl

theorem tokenPair_key_eq_value (K V : Str) (hK : '=' ∉ K) :
    tokenPair (K ++ '=' :: V) = (K, V) := by
  have h1 : ∀ c ∈ K, (c != '=') = true := by
    intro c hc
    simp only [bne_iff_ne, ne_eq]
    intro e
    exact hK (e ▸ hc)
  simp only [tokenPair, tokenKey, tokenValue]
  rw [List.takeWhile_append_of_pos h1, List.dropWhile_append_of_pos h1]
  simp

theorem insertAll_nil_singleton (k v : Str) : insertAll [] [(k, v)] = [⟨k, [v]⟩] := rfl

/-- The parse of a text that is one token. -/
theorem parse_word (t : Str) (ht : IsWord t) :
    parse t = [⟨tokenKey t, [tokenValue t]⟩] := by
  rw [parse_eq, Fields_word t ht]
  rfl

theorem fieldsFrom_eq_nil (s : Str) : ∀ (cur : Str),
    fieldsFrom cur s = [] ↔ cur = [] ∧ ∀ c ∈ s, isSpace c = true := by
  induction s with
  | nil => intro cur; by_cases h : cur = [] <;> simp [fieldsFrom, h]
  | cons d ds ih =>
    intro cur
    by_cases hd : isSpace d = true
    · by_cases h : cur = []
      · simp [fieldsFrom, hd, h, ih]
      · simp [fieldsFrom, hd, h]
    · have hd1 : isSpace d = false := by simpa using hd
      simp [fieldsFrom, hd1, ih]

/-- A text has no field exactly when it consists of white space only. -/
theorem Fields_eq_nil (s : Str) : Fields s = [] ↔ ∀ c ∈ s, isSpace c = true := by
  unfold Fields
  rw [fieldsFrom_eq_nil]
  simp

theorem insertAll_eq_nil (kvs : List (Str × Str)) : insertAll [] kvs = [] ↔ kvs = [] := by
  constructor
  · intro h
    cases kvs with
    | nil => rfl
    | cons kv rest =>
      have hk : kv.1 ∈ keys (insertAll [] (kv :: rest)) := by
        rw [keys_insertAll, mem_addKeys]; simp
      rw [h] at hk
      simp [keys] at hk
  · intro h; subst h; rfl

theorem parse_eq_nil (s : Str) : parse s = [] ↔ ∀ c ∈ s, isSpace c = true := by
  rw [parse_eq, insertAll_eq_nil, List.map_eq_nil_iff, Fields_eq_nil]

/-! ## Theorems: the frame of the merge loop of AppendAll -/

theorem addKeys_const (k : Str) (vs : List Str) (hv : vs ≠ []) : ∀ (ks : List Str),
    addKeys ks (vs.map (fun _ => k)) = if k ∈ ks then ks else ks ++ [k] := by
  induction vs with
  | nil => exact absurd rfl hv
  | cons v vs ih =>
    intro ks
    have e : addKeys ks ((v :: vs).map (fun _ => k)) =
        addKeys (if k ∈ ks then ks else ks ++ [k]) (vs.map (fun _ => k)) := rfl
    rw [e]
    cases vs with
    | nil => simp [addKeys]
    | cons w ws =>
      rw [ih (by simp)]
      by_cases h : k ∈ ks <;> simp [h]

theorem keys_mergeStep (O : List Str) (c : Cmdline) (p : Parameter) (hv : p.values ≠ []) :
    keys (mergeStep O c p).Parameters =
      if p.key ∈ keys c.Parameters then keys c.Parameters else keys c.Parameters ++ [p.key] := by
  unfold mergeStep
  split
  · simp only [Cmdline.Set]
    exact keys_setLoop _ _ _ rfl
  · rw [foldl_Append, keys_insertAll, List.map_map]
    exact addKeys_const p.key p.values hv _

theorem keys_foldl_mergeStep (O : List Str) (P : Parameters) :
    ∀ (c : Cmdline), (∀ p ∈ P, p.values ≠ []) →
      keys (P.foldl (mergeStep O) c).Parameters = addKeys (keys c.Parameters) (keys P) := by
  induction P with
  | nil => intro c _; simp [addKeys, keys]
  | cons p rest ih =>
    intro c h
    rw [List.foldl_cons, ih _ (fun q hq => h q (List.mem_cons_of_mem _ hq)),
      keys_mergeStep O c p (h p (List.mem_cons_self _ _))]
    rfl

theorem addKeys_addKeys (ks T : List Str) : addKeys ks (addKeys [] T) = addKeys ks T := by
  induction T using List.reverseRecOn with
  | nil => rfl
  | append_singleton T k ih =>
    rw [addKeys_snoc [] T k, addKeys_snoc ks T k]
    by_cases hk : k ∈ addKeys [] T
    · have hk1 : k ∈ addKeys ks T := by
        rw [mem_addKeys] at hk ⊢
        rcases hk with h | h
        · simp at h
        · exact Or.inr h
      rw [if_pos hk, if_pos hk1, ih]
    · rw [if_neg hk, addKeys_snoc ks (addKeys [] T) k, ih]

theorem values_parse_ne_nil (s : Str) (p : Parameter) (hp : p ∈ parse s) : p.values ≠ [] :=
  values_insertAll ((Fields s).map tokenPair) p (by rw [← parse_eq]; exact hp)

/-- The keys after AppendAll: the prior keys, then the new keys of the
arguments in the order of their first occurrence. -/
theorem keys_AppendAll (c : Cmdline) (args O : List Str) :
    keys (c.AppendAll args [WithOverwriteArgs O]).Parameters =
      addKeys (keys c.Parameters) ((argTokens args).map tokenKey) := by
  rw [AppendAll_eq, keys_foldl_mergeStep O _ c (values_parse_ne_nil _), keys_parse,
    addKeys_addKeys, ← Fields_Join_args]
  rfl

theorem addKeys_prefix (T : List Str) : ∀ (ks : List Str), ks <+: addKeys ks T := by
  induction T with
  | nil => intro ks; exact List.prefix_refl ks
  | cons t T ih =>
    intro ks
    have e : addKeys ks (t :: T) = addKeys (if t ∈ ks then ks else ks ++ [t]) T := rfl
    rw [e]
    by_cases h : t ∈ ks
    · simpa [h] using ih ks
    · simp only [h, if_false]
      exact List.IsPrefix.trans (List.prefix_append ks [t]) (ih _)

/-- Keys added to a list come after it, in the order of first occurrence. -/
theorem firstIndex_addKeys_new (ks T : List Str) : ∀ a b, a ∈ T → b ∈ T → a ∉ ks → b ∉ ks →
    (firstIndex (addKeys ks T) a < firstIndex (addKeys ks T) b ↔
      firstIndex T a < firstIndex T b) := by
  induction T using List.reverseRecOn with
  | nil => intro a b ha; simp at ha
  | append_singleton T k ih =>
    intro a b ha hb hak hbk
    have hmem : ∀ x, x ∉ ks → (x ∈ addKeys ks T ↔ x ∈ T) := fun x hx => by
      rw [mem_addKeys]
      exact ⟨fun h => h.resolve_left hx, Or.inr⟩
    have ha2 : a ∈ T ∨ a = k := by simpa using ha
    have hb2 : b ∈ T ∨ b = k := by simpa using hb
    rw [addKeys_snoc]
    by_cases hk : k ∈ addKeys ks T
    · rw [if_pos hk]
      have hcase : k ∈ T ∨ (k ∉ T ∧ k ∈ ks) := by
        by_cases h : k ∈ T
        · exact Or.inl h
        · exact Or.inr ⟨h, ((mem_addKeys T ks k).1 hk).resolve_right h⟩
      have ha1 : a ∈ T := by
        rcases ha2 with h | h
        · exact h
        · rcases hcase with h1 | h1
          · exact h ▸ h1
          · exact absurd (h ▸ h1.2) hak
      have hb1 : b ∈ T := by
        rcases hb2 with h | h
        · exact h
        · rcases hcase with h1 | h1
          · exact h ▸ h1
          · exact absurd (h ▸ h1.2) hbk
      rw [firstIndex_append_of_mem _ _ _ ha1, firstIndex_append_of_mem _ _ _ hb1]
      exact ih a b ha1 hb1 hak hbk
    · rw [if_neg hk]
      have hkT : k ∉ T := fun h => hk ((mem_addKeys T ks k).2 (Or.inr h))
      have hin : ∀ x, x ∈ T → x ∉ ks →
          firstIndex (addKeys ks T ++ [k]) x = firstIndex (addKeys ks T) x ∧
          firstIndex (T ++ [k]) x = firstIndex T x ∧
          firstIndex (addKeys ks T) x < (addKeys ks T).length ∧ firstIndex T x < T.length := by
        intro x hx hxk
        exact ⟨firstIndex_append_of_mem _ _ _ ((hmem x hxk).2 hx),
          firstIndex_append_of_mem _ _ _ hx,
          (firstIndex_lt_length _ _).2 ((hmem x hxk).2 hx), (firstIndex_lt_length _ _).2 hx⟩
      have hout : firstIndex (addKeys ks T ++ [k]) k = (addKeys ks T).length ∧
          firstIndex (T ++ [k]) k = T.length :=
        ⟨firstIndex_append_self _ _ hk, firstIndex_append_self _ _ hkT⟩
      rcases ha2 with ha2 | ha2 <;> rcases hb2 with hb2 | hb2
      · rw [(hin a ha2 hak).1, (hin a ha2 hak).2.1, (hin b hb2 hbk).1, (hin b hb2 hbk).2.1]
        exact ih a b ha2 hb2 hak hbk
      · subst hb2
        rw [(hin a ha2 hak).1, (hin a ha2 hak).2.1, hout.1, hout.2]
        exact ⟨fun _ => (hin a ha2 hak).2.2.2, fun _ => (hin a ha2 hak).2.2.1⟩
      · subst ha2
        rw [(hin b hb2 hbk).1, (hin b hb2 hbk).2.1, hout.1, hout.2]
        constructor
        · intro h; exact absurd h (Nat.lt_asymm (hin b hb2 hbk).2.2.1)
        · intro h; exact absurd h (Nat.lt_asymm (hin b hb2 hbk).2.2.2)
      · subst ha2; subst hb2
        simp

theorem setLoop_getElem_ne (k : Str) (p q : Parameter) (hq : q.key ≠ k) :
    ∀ (ps : Parameters) (i : Nat), ps[i]? = some q → (setLoop ps k p)[i]? = some q := by
  intro ps
  induction ps with
  | nil => intro i h; simp at h
  | cons r rest ih =>
    intro i h
    by_cases hr : r.key = k
    · simp only [setLoop, hr, if_true]
      cases i with
      | zero =>
        simp only [List.getElem?_cons_zero, Option.some.injEq] at h
        exact absurd (h ▸ hr) hq
      | succ n => simpa using h
    · simp only [setLoop, hr, if_false]
      cases i with
      | zero => simpa using h
      | succ n =>
        simp only [List.getElem?_cons_succ] at h ⊢
        exact ih n h

theorem insert_getElem_ne (k v : Str) (q : Parameter) (hq : q.key ≠ k) :
    ∀ (ps : Parameters) (i : Nat), ps[i]? = some q → (insert ps k v)[i]? = some q := by
  intro ps
  induction ps with
  | nil => intro i h; simp at h
  | cons r rest ih =>
    intro i h
    by_cases hr : r.key = k
    · simp only [insert, hr, if_true]
      cases i with
      | zero =>
        simp only [List.getElem?_cons_zero, Option.some.injEq] at h
        exact absurd (h ▸ hr) hq
      | succ n => simpa using h
    · simp only [insert, hr, if_false]
      cases i with
      | zero => simpa using h
      | succ n =>
        simp only [List.getElem?_cons_succ] at h ⊢
        exact ih n h

theorem mergeStep_getElem_ne (O : List Str) (c : Cmdline) (p q : Parameter) (i : Nat)
    (hq : q.key ≠ p.key) (h : c.Parameters[i]? = some q) :
    (mergeStep O c p).Parameters[i]? = some q := by
  unfold mergeStep
  split
  · exact setLoop_getElem_ne p.key p q hq _ i h
  · refine foldl_invariant (fun c => c.Parameters[i]? = some q) _ ?_ p.values c h
    intro a v ha
    show (a.Append p.key v).Parameters[i]? = some q
    rw [Append_Parameters]
    exact insert_getElem_ne p.key v q hq _ i ha

theorem foldl_mergeStep_getElem_ne (O : List Str) (q : Parameter) (i : Nat) (P : Parameters) :
    ∀ (c : Cmdline), (∀ p ∈ P, q.key ≠ p.key) → c.Parameters[i]? = some q →
      (P.foldl (mergeStep O) c).Parameters[i]? = some q := by
  induction P with
  | nil => intro c _ h; exact h
  | cons p rest ih =>
    intro c hP h
    rw [List.foldl_cons]
    exact ih _ (fun r hr => hP r (List.mem_cons_of_mem _ hr))
      (mergeStep_getElem_ne O c p q i (hP p (List.mem_cons_self _ _)) h)

/-! ## Theorems: AppendAll without overwrite and the token by token Append -/

theorem Cmdline_ext (a b : Cmdline) (h : a.Parameters = b.Parameters) : a = b := by
  cases a; cases b; simp only at h; rw [h]

theorem insert_comm (k v k1 v1 : Str) (hne : k ≠ k1) : ∀ (acc : Parameters), k ∈ keys acc →
    insert (insert acc k1 v1) k v = insert (insert acc k v) k1 v1 := by
  intro acc
  induction acc with
  | nil => intro h; simp [keys] at h
  | cons q rest ih =>
    intro h
    by_cases hq : q.key = k
    · have hq1 : ¬ q.key = k1 := fun e => hne (hq.symm.trans e)
      have hne1 : ¬ k = k1 := hne
      simp [insert, hq, hne1, Parameter.Append]
    · have hrest : k ∈ keys rest := by
        simp only [keys, List.map_cons, List.mem_cons] at h
        rcases h with h | h
        · exact absurd h.symm hq
        · exact h
      by_cases hq1 : q.key = k1
      · have hne1 : ¬ k1 = k := fun e => hne e.symm
        simp [insert, hq1, hne1, Parameter.Append]
      · simp only [insert, hq, hq1, if_false]
        rw [ih hrest]

theorem mem_keys_insert (acc : Parameters) (k k1 v1 : Str) (h : k ∈ keys acc) :
    k ∈ keys (insert acc k1 v1) := by
  rw [keys_insert]
  split
  · exact h
  · exact List.mem_append_left _ h

theorem insertAll_insert_comm (k v : Str) (Y : List (Str × Str)) (hY : k ∉ Y.map Prod.fst) :
    ∀ (acc : Parameters), k ∈ keys acc →
      insertAll (insert acc k v) Y = insert (insertAll acc Y) k v := by
  induction Y with
  | nil => intro acc _; rfl
  | cons kv Y ih =>
    intro acc h
    simp only [List.map_cons, List.mem_cons, not_or] at hY
    have e1 : insertAll (insert acc k v) (kv :: Y) =
        insertAll (insert (insert acc k v) kv.1 kv.2) Y := rfl
    have e2 : insertAll acc (kv :: Y) = insertAll (insert acc kv.1 kv.2) Y := rfl
    rw [e1, e2, ← insert_comm k v kv.1 kv.2 hY.1 acc h,
      ih hY.2 _ (mem_keys_insert acc k kv.1 kv.2 h)]

theorem insertAll_append (acc : Parameters) (X Y : List (Str × Str)) :
    insertAll acc (X ++ Y) = insertAll (insertAll acc X) Y := by
  simp [insertAll, List.foldl_append]

theorem split_at_key (k : Str) : ∀ (ps : Parameters), (keys ps).Nodup → k ∈ keys ps →
    ∃ A p B, ps = A ++ p :: B ∧ p.key = k ∧ k ∉ keys A ∧ k ∉ keys B := by
  intro ps
  induction ps with
  | nil => intro _ h; simp [keys] at h
  | cons q rest ih =>
    intro hnd h
    simp only [keys, List.map_cons, List.nodup_cons] at hnd
    by_cases hq : q.key = k
    · exact ⟨[], q, rest, rfl, hq, by simp [keys], by rw [← hq]; exact hnd.1⟩
    · have hrest : k ∈ keys rest := by
        simp only [keys, List.map_cons, List.mem_cons] at h
        rcases h with h | h
        · exact absurd h.symm hq
        · exact h
      obtain ⟨A, p, B, e, hp, hA, hB⟩ := ih hnd.2 hrest
      refine ⟨q :: A, p, B, by rw [e]; rfl, hp, ?_, hB⟩
      simp only [keys, List.map_cons, List.mem_cons, not_or]
      exact ⟨fun e1 => hq e1.symm, hA⟩

theorem pairsOf_keys (ps : Parameters) (k : Str) (h : k ∈ (pairsOf ps).map Prod.fst) :
    k ∈ keys ps := by
  simp only [pairsOf, List.mem_map, List.mem_flatMap] at h
  obtain ⟨kv, ⟨p, hp, v, _, rfl⟩, rfl⟩ := h
  exact List.mem_map.2 ⟨p, hp, rfl⟩

/-- Grouping the pairs by key, as parse does, does not change what the fold
of insert builds from them on any sequence of entries. -/
theorem insertAll_pairsOf (kvs : List (Str × Str)) : ∀ (acc : Parameters),
    insertAll acc (pairsOf (insertAll [] kvs)) = insertAll acc kvs := by
  induction kvs using List.reverseRecOn with
  | nil => intro acc; rfl
  | append_singleton kvs kv ih =>
    intro acc
    have hnd : (keys (insertAll [] kvs)).Nodup := by
      rw [keys_insertAll]; exact nodup_addKeys _ _ List.nodup_nil
    rw [insertAll_snoc acc, insertAll_snoc []]
    by_cases hk : kv.1 ∈ keys (insertAll [] kvs)
    · obtain ⟨A, p, B, e, hp, hA, hB⟩ := split_at_key kv.1 _ hnd hk
      have hpv : p.values ≠ [] := values_insertAll kvs p (by rw [e]; simp)
      have e1 : insert (insertAll [] kvs) kv.1 kv.2 = A ++ p.Append kv.2 :: B := by
        rw [e, insert_append_of_not_mem _ _ _ _ hA]
        simp [insert, hp]
      have e2 : pairsOf (A ++ p.Append kv.2 :: B) =
          (pairsOf A ++ pairsOf [p]) ++ [kv] ++ pairsOf B := by
        have : p.Append kv.2 :: B = [p.Append kv.2] ++ B := rfl
        rw [this, pairsOf_append, pairsOf_append]
        simp [pairsOf, Parameter.Append, hp]
      have e3 : pairsOf (insertAll [] kvs) = (pairsOf A ++ pairsOf [p]) ++ pairsOf B := by
        have : p :: B = [p] ++ B := rfl
        rw [e, this, pairsOf_append, pairsOf_append, List.append_assoc]
      have hin : kv.1 ∈ keys (insertAll acc (pairsOf A ++ pairsOf [p])) := by
        rw [keys_insertAll, mem_addKeys]
        right
        obtain ⟨v, hv⟩ := List.exists_mem_of_ne_nil _ hpv
        simp only [List.map_append, List.mem_append, List.mem_map]
        right
        refine ⟨(p.key, v), ?_, hp⟩
        simp only [pairsOf, List.flatMap_cons, List.flatMap_nil, List.append_nil, List.mem_map]
        exact ⟨v, hv, rfl⟩
      have hout : kv.1 ∉ (pairsOf B).map Prod.fst := fun h => hB (pairsOf_keys B kv.1 h)
      rw [e1, e2, insertAll_append, insertAll_append, ← ih acc, e3,
        insertAll_append acc (pairsOf A ++ pairsOf [p]) (pairsOf B)]
      exact insertAll_insert_comm kv.1 kv.2 _ hout _ hin
    · rw [insert_of_not_mem _ _ _ hk, pairsOf_append, insertAll_append, ih acc]
      rfl

theorem foldl_mergeStep_nil (P : Parameters) : ∀ (c : Cmdline),
    (P.foldl (mergeStep []) c).Parameters = insertAll c.Parameters (pairsOf P) := by
  induction P with
  | nil => intro c; rfl
  | cons p rest ih =>
    intro c
    have e : pairsOf (p :: rest) = p.values.map (fun v => (p.key, v)) ++ pairsOf rest := by
      simp [pairsOf]
    rw [List.foldl_cons, ih, e, insertAll_append]
    congr 1
    simp only [mergeStep, List.any_nil, Bool.false_eq_true, if_false]
    exact foldl_Append p.values p.key c

theorem foldl_Append_tokens (T : List Str) : ∀ (c : Cmdline),
    (T.foldl (fun c t => c.Append (tokenKey t) (tokenValue t)) c).Parameters =
      insertAll c.Parameters (T.map tokenPair) := by
  induction T with
  | nil => intro c; rfl
  | cons t T ih =>
    intro c
    rw [List.foldl_cons, ih, Append_Parameters]
    rfl

/-- The entries after AppendAll without overwrite option. -/
theorem AppendAll_nil_Parameters (c : Cmdline) (args : List Str) :
    (c.AppendAll args []).Parameters =
      insertAll c.Parameters ((argTokens args).map tokenPair) := by
  have e : c.AppendAll args [] = (parse (Join args [' '])).foldl (mergeStep []) c := rfl
  rw [e, foldl_mergeStep_nil, parse_eq, insertAll_pairsOf, Fields_Join_args]

/-! ## Theorems: SetAll -/

theorem foldl_mergeStep_all (O : List Str) (P : Parameters) : ∀ (c : Cmdline),
    (∀ p ∈ P, p.key ∈ O) →
      P.foldl (mergeStep O) c = P.foldl (fun c p => c.Set p.key p) c := by
  induction P with
  | nil => intro c _; rfl
  | cons p rest ih =>
    intro c h
    have hp : O.any (fun key => key == p.key) = true := by
      simp only [List.any_eq_true, beq_iff_eq]
      exact ⟨p.key, h p (List.mem_cons_self _ _), rfl⟩
    rw [List.foldl_cons, List.foldl_cons, ih _ (fun q hq => h q (List.mem_cons_of_mem _ hq))]
    simp only [mergeStep, hp, if_true]

theorem setLoop_of_find (k : Str) (p : Parameter) : ∀ (ps : Parameters),
    ps.find? (fun q => q.key = k) = some p → setLoop ps k p = ps := by
  intro ps
  induction ps with
  | nil => intro h; simp at h
  | cons q rest ih =>
    intro h
    by_cases hq : q.key = k
    · simp only [List.find?_cons, hq, decide_True, Option.some.injEq] at h
      subst h
      simp [setLoop, hq]
    · simp only [List.find?_cons, hq, decide_False] at h
      simp only [setLoop, hq, if_false]
      rw [ih h]

theorem foldl_Set_fixed (P : Parameters) (c : Cmdline)
    (h : ∀ p ∈ P, c.Parameters.find? (fun q => q.key = p.key) = some p) :
    P.foldl (fun c p => c.Set p.key p) c = c := by
  induction P with
  | nil => rfl
  | cons p rest ih =>
    have e : c.Set p.key p = c :=
      Cmdline_ext _ _ (setLoop_of_find p.key p _ (h p (List.mem_cons_self _ _)))
    rw [List.foldl_cons, e]
    exact ih (fun q hq => h q (List.mem_cons_of_mem _ hq))

/-- After SetAll every parsed parameter is the entry found under its key. -/
theorem find_SetAll (c : Cmdline) (args : List Str) (p : Parameter)
    (hp : p ∈ parse (Join args [' '])) :
    (c.SetAll args).Parameters.find? (fun q => q.key = p.key) = some p := by
  have hall : ∀ q ∈ parse (Join args [' ']), q.key ∈ keys (parse (Join args [' '])) :=
    fun q hq => List.mem_map.2 ⟨q, hq, rfl⟩
  have e : c.SetAll args =
      (parse (Join args [' '])).foldl (mergeStep (keys (parse (Join args [' '])))) c := by
    rw [foldl_mergeStep_all _ _ c hall]
    rfl
  rw [e, find_foldl_mergeStep _ _ c (nodup_parse _) p hp (values_parse_ne_nil _ p hp),
    if_pos (hall p hp)]

/-! ## Theorems: the singleton and the calls of the merge loop -/

theorem ProcCmdlineCalls_done (source : Nat → Except Str Str) :
    ∀ (n : Nat) (w : Package), w.onceDone = true →
      ProcCmdlineCalls source n w = (List.replicate n (Except.ok w.inst), w) := by
  intro n
  induction n with
  | zero => intro w _; rfl
  | succ n ih =>
    intro w h
    have e : ProcCmdline source w = (Except.ok w.inst, w) := by
      simp [ProcCmdline, h]
    simp only [ProcCmdlineCalls, e, ih w h, List.replicate_succ]

theorem mergeCalls_cons (O : List Str) (p : Parameter) (rest : Parameters) :
    mergeCalls O (p :: rest) =
      (if O.any (fun key => key == p.key) then [Call.set p.key p]
        else p.values.map (fun v => Call.append p.key v)) ++ mergeCalls O rest := by
  simp only [mergeCalls, List.flatMap_cons]

theorem foldl_run_appends (k : Str) (vs : List Str) : ∀ (c : Cmdline),
    (vs.map (fun v => Call.append k v)).foldl Call.run c =
      vs.foldl (fun c v => c.Append k v) c := by
  induction vs with
  | nil => intro c; rfl
  | cons v vs ih => intro c; simp only [List.map_cons, List.foldl_cons, ih]; rfl

/-- Running the calls of the merge loop gives the store of the merge loop. -/
theorem foldl_run_mergeCalls (O : List Str) (P : Parameters) : ∀ (c : Cmdline),
    (mergeCalls O P).foldl Call.run c = P.foldl (mergeStep O) c := by
  induction P with
  | nil => intro c; rfl
  | cons p rest ih =>
    intro c
    rw [mergeCalls_cons, List.foldl_append, ih, List.foldl_cons]
    congr 1
    by_cases h : O.any (fun key => key == p.key) = true
    · simp only [h, if_true, if_false, mergeStep, List.foldl_cons, List.foldl_nil, Call.run]
    · have h1 : O.any (fun key => key == p.key) = false := by
        cases hb : O.any (fun key => key == p.key) with
        | true => exact absurd hb h
        | false => rfl
      simp only [h1, Bool.false_eq_true, if_true, if_false, mergeStep]
      exact foldl_run_appends p.key p.values c

/-! ## Theorems: the store at pointer level -/

/-- On entries that are separate objects, Append with a key that is present
extends the value list of the first entry with that key and changes nothing
else. -/
theorem Append_frame_of_mem (c : Cmdline) (k v : Str) (h : k ∈ keys c.Parameters) :
    (∃ q, c.Parameters[firstIndex (keys c.Parameters) k]? = some q ∧ q.key = k ∧
      (c.Append k v).Parameters[firstIndex (keys c.Parameters) k]? =
        some ⟨k, q.values ++ [v]⟩) ∧
    (∀ j, j ≠ firstIndex (keys c.Parameters) k →
      (c.Append k v).Parameters[j]? = c.Parameters[j]?) ∧
    (c.Append k v).Parameters.length = c.Parameters.length ∧
    keys (c.Append k v).Parameters = keys c.Parameters := by
  have hi : firstIndex (keys c.Parameters) k < c.Parameters.length := by
    have := (firstIndex_lt_length _ _).2 h
    simpa [keys] using this
  obtain ⟨q, hq1, hq2, hq3⟩ := insert_of_mem c.Parameters k v h
  rw [Append_Parameters]
  refine ⟨⟨q, hq1, hq2, ?_⟩, ?_, ?_, ?_⟩
  · rw [hq3]; simp [List.getElem?_set, hi]
  · intro j hj
    rw [hq3, List.getElem?_set_ne (Ne.symm hj)]
  · rw [hq3, List.length_set]
  · rw [keys_insert, if_pos h]

theorem Memory_find_eq (heap : Nat → Parameter) (k : Str) : ∀ (slots : List Nat),
    k ∈ keys (slots.map heap) →
      slots.find? (fun a => (heap a).key = k) =
        slots[firstIndex (keys (slots.map heap)) k]? := by
  intro slots
  induction slots with
  | nil => intro h; simp [keys] at h
  | cons a rest ih =>
    intro h
    by_cases ha : (heap a).key = k
    · simp [List.find?_cons, ha, firstIndex, keys, List.findIdx_cons]
    · have h1 : k ∈ keys (rest.map heap) := by
        simp only [keys, List.map_cons, List.mem_cons] at h
        rcases h with h | h
        · exact absurd h.symm ha
        · exact h
      have e : firstIndex (keys ((a :: rest).map heap)) k =
          firstIndex (keys (rest.map heap)) k + 1 := by
        simp [firstIndex, keys, List.findIdx_cons, ha]
      rw [e, List.getElem?_cons_succ, ← ih h1]
      simp [List.find?_cons, ha]

theorem map_write_eq_set (heap : Nat → Parameter) (slots : List Nat) (i a : Nat)
    (x : Parameter) (ha : slots[i]? = some a)
    (hown : ∀ j < slots.length, j ≠ i → slots[j]? ≠ some a) :
    slots.map (fun b => if b = a then x else heap b) = (slots.map heap).set i x := by
  apply List.ext_getElem?
  intro j
  by_cases hj : j = i
  · subst hj
    have hlt : j < (slots.map heap).length := by
      rw [List.length_map]; exact (List.getElem?_eq_some_iff.1 ha).1
    rw [List.getElem?_map, ha, List.getElem?_set, if_pos rfl, if_pos hlt]
    simp
  · have hne : ¬ i = j := fun e => hj e.symm
    rw [List.getElem?_set_ne hne, List.getElem?_map, List.getElem?_map]
    cases hjs : slots[j]? with
    | none => rfl
    | some b =>
      have hlt : j < slots.length := (List.getElem?_eq_some_iff.1 hjs).1
      have hb : ¬ b = a := by
        intro e
        exact hown j hlt hj (by rw [hjs, e])
      simp [hb]

/-- When no other slot holds the pointer of the first slot with key k, Append
at pointer level shows as Append on the entries. -/
theorem Memory_Append_view (m : Memory) (k v : Str) (h : k ∈ keys m.view.Parameters)
    (hown : ∀ j < m.slots.length, j ≠ firstIndex (keys m.view.Parameters) k →
      m.slots[j]? ≠ m.slots[firstIndex (keys m.view.Parameters) k]?) :
    (m.Append k v).view = m.view.Append k v := by
  apply Cmdline_ext
  have hi : firstIndex (keys m.view.Parameters) k < m.slots.length := by
    have := (firstIndex_lt_length _ _).2 h
    simpa [keys, Memory.view] using this
  obtain ⟨a, ha⟩ : ∃ a, m.slots[firstIndex (keys m.view.Parameters) k]? = some a :=
    ⟨_, List.getElem?_eq_getElem hi⟩
  have hf : m.find k = some a := by
    rw [← ha]
    exact Memory_find_eq m.heap k m.slots h
  obtain ⟨q, hq1, hq2, hq3⟩ := insert_of_mem m.view.Parameters k v h
  have hq : m.heap a = q := by
    have e : m.view.Parameters[firstIndex (keys m.view.Parameters) k]? =
        (m.slots[firstIndex (keys m.view.Parameters) k]?).map m.heap := by
      simp [Memory.view, List.getElem?_map]
    rw [e, ha] at hq1
    simpa using hq1
  have hA : m.Append k v = m.write a v := by
    simp only [Memory.Append, hf]
  have hx : (m.heap a).Append v = ⟨k, q.values ++ [v]⟩ := by
    rw [hq]; simp [Parameter.Append, hq2]
  rw [Append_Parameters, hq3, hA]
  show m.slots.map (fun b => if b = a then (m.heap a).Append v else m.heap b) = _
  rw [map_write_eq_set m.heap m.slots _ a _ ha (fun j hj hne => by
    rw [← ha]; exact hown j hj hne), hx]
  rfl

theorem Memory_find_none (m : Memory) (k : Str) (h : k ∉ keys m.view.Parameters) :
    m.find k = none := by
  unfold Memory.find
  rw [List.find?_eq_none]
  intro a ha e
  apply h
  simp only [Memory.view, keys, List.map_map, List.mem_map, Function.comp]
  exact ⟨a, ha, by simpa using e⟩

theorem Separate_own (m : Memory) (hm : m.Separate) (i : Nat) :
    ∀ j < m.slots.length, j ≠ i → m.slots[j]? ≠ m.slots[i]? := by
  intro j hj hne e
  by_cases hi : i < m.slots.length
  · rcases Nat.lt_or_gt_of_ne hne with h | h
    · exact List.nodup_iff_getElem?_ne_getElem?.1 hm.2 j i h hi e
    · exact List.nodup_iff_getElem?_ne_getElem?.1 hm.2 i j h hj e.symm
  · rw [List.getElem?_eq_none (Nat.le_of_not_lt hi), List.getElem?_eq_getElem hj] at e
    exact absurd e (by simp)

/-- On a store whose entries are objects of their own, insert at pointer
level shows as insert on the entries, and the entries stay objects of their
own. -/
theorem Memory_insert_view (m : Memory) (k v : Str) (hm : m.Separate) :
    (m.insert k v).view.Parameters = insert m.view.Parameters k v ∧
    (m.insert k v).Separate := by
  by_cases h : k ∈ keys m.view.Parameters
  · have hi : firstIndex (keys m.view.Parameters) k < m.slots.length := by
      have := (firstIndex_lt_length _ _).2 h
      simpa [keys, Memory.view] using this
    obtain ⟨a, ha⟩ : ∃ a, m.slots[firstIndex (keys m.view.Parameters) k]? = some a :=
      ⟨_, List.getElem?_eq_getElem hi⟩
    have hf : m.find k = some a := by
      rw [← ha]
      exact Memory_find_eq m.heap k m.slots h
    have e1 : m.insert k v = m.Append k v := by
      simp only [Memory.insert, Memory.Append, hf]
    rw [e1, Memory_Append_view m k v h (Separate_own m hm _), Append_Parameters]
    refine ⟨rfl, ?_⟩
    simp only [Memory.Append, hf, Memory.write]
    exact hm
  · have hf : m.find k = none := Memory_find_none m k h
    have hlt : ∀ a ∈ m.slots, ¬ a = m.next := fun a ha e =>
      absurd (hm.1 a ha) (by rw [e]; exact Nat.lt_irrefl _)
    have hmap : m.slots.map (fun a => if a = m.next then (⟨k, [v]⟩ : Parameter) else m.heap a) =
        m.slots.map m.heap := by
      apply List.map_congr_left
      intro a ha
      simp [hlt a ha]
    constructor
    · rw [insert_of_not_mem _ _ _ h]
      simp only [Memory.insert, hf, Memory.alloc, Memory.view, List.map_append, hmap,
        List.map_cons, List.map_nil, if_true]
    · simp only [Memory.insert, hf, Memory.alloc, Memory.Separate]
      constructor
      · intro a ha
        rcases List.mem_append.1 ha with h1 | h1
        · exact Nat.lt_succ_of_lt (hm.1 a h1)
        · simp at h1; rw [h1]; exact Nat.lt_succ_self _
      · rw [List.nodup_append]
        refine ⟨hm.2, List.nodup_singleton _, ?_⟩
        intro a ha hb
        simp at hb
        exact hlt a ha hb

theorem Memory_insertAll_view (kvs : List (Str × Str)) : ∀ (m : Memory), m.Separate →
    (kvs.foldl (fun m kv => m.insert kv.1 kv.2) m).view.Parameters =
      insertAll m.view.Parameters kvs ∧
    (kvs.foldl (fun m kv => m.insert kv.1 kv.2) m).Separate := by
  induction kvs with
  | nil => intro m hm; exact ⟨rfl, hm⟩
  | cons kv rest ih =>
    intro m hm
    obtain ⟨e, hs⟩ := Memory_insert_view m kv.1 kv.2 hm
    obtain ⟨e1, hs1⟩ := ih _ hs
    rw [List.foldl_cons]
    refine ⟨?_, hs1⟩
    rw [e1, e]
    rfl

theorem Memory_parse_eq (s : Str) :
    Memory.parse s = ((Fields s).map tokenPair).foldl (fun m kv => m.insert kv.1 kv.2)
      Memory.empty := by
  unfold Memory.parse
  simp only [Fields_TrimSuffix]
  rw [List.foldl_map]
  congr 1
  funext parsed arg
  rcases SplitN2_eq arg with ⟨h, hv⟩ | h
  · rw [h]; simp [tokenPair, hv]
  · rw [h]; simp [tokenPair]

/-- The store that NewCmdline builds at pointer level shows as the parsed
entries, each an object of its own. -/
theorem Memory_NewCmdline_view (s : Str) :
    (Memory.NewCmdline s).view = NewCmdline s ∧ (Memory.NewCmdline s).Separate := by
  have h0 : Memory.empty.Separate := ⟨by simp [Memory.empty], by simp [Memory.empty]⟩
  obtain ⟨e, hs⟩ := Memory_insertAll_view ((Fields s).map tokenPair) Memory.empty h0
  unfold Memory.NewCmdline
  rw [Memory_parse_eq]
  refine ⟨Cmdline_ext _ _ ?_, hs⟩
  rw [e]
  simp only [NewCmdline, parse_eq]
  rfl

/-- With pairwise distinct keys no two slots hold the same pointer. -/
theorem own_of_distinct_keys (m : Memory) (hk : (keys m.view.Parameters).Nodup) (i : Nat) :
    ∀ j < m.slots.length, j ≠ i → m.slots[j]? ≠ m.slots[i]? := by
  intro j hj hne e
  have e1 : (keys m.view.Parameters)[j]? = (keys m.view.Parameters)[i]? := by
    simp only [keys, Memory.view, List.getElem?_map, e]
  have hj1 : j < (keys m.view.Parameters).length := by
    simpa [keys, Memory.view] using hj
  by_cases hi : i < (keys m.view.Parameters).length
  · rcases Nat.lt_or_gt_of_ne hne with h | h
    · exact List.nodup_iff_getElem?_ne_getElem?.1 hk j i h hi e1
    · exact List.nodup_iff_getElem?_ne_getElem?.1 hk i j h hj1 e1.symm
  · rw [List.getElem?_eq_none (Nat.le_of_not_lt hi), List.getElem?_eq_getElem hj1] at e1
    exact absurd e1 (by simp)

/-! ## Theorems: concurrent callers -/

theorem Sectioned_append (a b : List Instr) (ha : Sectioned a) (hb : Sectioned b) :
    Sectioned (a ++ b) := by
  induction ha with
  | nil => exact hb
  | read rest _ ih => exact Sectioned.read _ ih
  | write call rest _ ih => exact Sectioned.write call _ ih

theorem Sectioned_flatMap {α : Type} (f : α → List Instr) (l : List α)
    (h : ∀ x ∈ l, Sectioned (f x)) : Sectioned (l.flatMap f) := by
  induction l with
  | nil => exact Sectioned.nil
  | cons x l ih =>
    rw [List.flatMap_cons]
    exact Sectioned_append _ _ (h x (List.mem_cons_self _ _))
      (ih (fun y hy => h y (List.mem_cons_of_mem _ hy)))

theorem writesOf_append (a b : List Instr) : writesOf (a ++ b) = writesOf a ++ writesOf b := by
  induction a with
  | nil => rfl
  | cons i a ih => cases i <;> simp [writesOf, ih]

theorem writesOf_flatMap {α : Type} (f : α → List Instr) (l : List α) :
    writesOf (l.flatMap f) = l.flatMap (fun x => writesOf (f x)) := by
  induction l with
  | nil => rfl
  | cons x l ih => rw [List.flatMap_cons, List.flatMap_cons, writesOf_append, ih]

/-- The body of every call is made of whole critical sections, and its writes
are the calls of Set and Append that the call makes. -/
theorem Op_body_spec (op : Op) : Sectioned op.body ∧ writesOf op.body = op.writes := by
  have hS : ∀ k v, Sectioned (SetBody k v) := fun k v => Sectioned.write _ _ Sectioned.nil
  have hA : ∀ k v, Sectioned (AppendBody k v) := fun k v => Sectioned.write _ _ Sectioned.nil
  cases op with
  | get k => exact ⟨Sectioned.read _ Sectioned.nil, rfl⟩
  | set k v => exact ⟨hS k v, rfl⟩
  | append k v => exact ⟨hA k v, rfl⟩
  | setAll args =>
    refine ⟨Sectioned_flatMap _ _ (fun p _ => hS p.key p), ?_⟩
    simp only [Op.body, Op.writes, SetAllBody, writesOf_flatMap]
    induction parse (Join args [' ']) with
    | nil => rfl
    | cons p rest ih => rw [List.flatMap_cons, List.map_cons, ih]; rfl
  | appendAll args opts =>
    constructor
    · refine Sectioned_flatMap _ _ (fun p _ => ?_)
      split
      · exact hS p.key p
      · exact Sectioned_flatMap _ _ (fun v _ => hA p.key v)
    · simp only [Op.body, Op.writes, AppendAllBody, writesOf_flatMap, mergeCalls]
      congr 1
      funext p
      split
      · rfl
      · rw [writesOf_flatMap]
        induction p.values with
        | nil => rfl
        | cons v vs ih => rw [List.flatMap_cons, List.map_cons, ih]; rfl

theorem foldl_run_sets (P : Parameters) : ∀ (c : Cmdline),
    (P.map (fun p => Call.set p.key p)).foldl Call.run c =
      P.foldl (fun c p => c.Set p.key p) c := by
  induction P with
  | nil => intro c; rfl
  | cons p rest ih => intro c; simp only [List.map_cons, List.foldl_cons, ih]; rfl

/-- The calls of Set and Append that a call makes, run one after another,
give the store that the call gives when it runs alone. -/
theorem Op_writes_run (op : Op) (c : Cmdline) : op.writes.foldl Call.run c = op.run c := by
  cases op with
  | get k => rfl
  | set k v => rfl
  | append k v => rfl
  | setAll args => exact foldl_run_sets _ c
  | appendAll args opts => exact foldl_run_mergeCalls _ _ c

theorem applyLog_snoc (c : Cmdline) (log : List (Nat × Call)) (e : Nat × Call) :
    applyLog c (log ++ [e]) = Call.run (applyLog c log) e.2 := by
  simp [applyLog, List.foldl_append]

theorem Invariant_start (c : Cmdline) (ops : Nat → List Op) :
    Invariant c ops (Shared.start c ops) := by
  refine ⟨rfl, ?_, ?_, ?_⟩
  · intro t
    left
    refine ⟨Sectioned_flatMap _ _ (fun op _ => (Op_body_spec op).1), ?_⟩
    simp [Shared.start]
  · intro t x hx
    simp [Shared.start] at hx
  · intro t
    simp only [Shared.start, List.filter_nil, List.map_nil, List.nil_append, writesOf_flatMap]
    congr 1
    funext op
    exact (Op_body_spec op).2

/-- While caller t holds the mutex, or while nobody does, every other caller
stands between critical sections. -/
theorem others_sectioned (s : Shared) (t : Nat) (hth : ∀ u, ThreadOK s u)
    (ho : s.owner = none ∨ s.owner = some t) :
    ∀ u, u ≠ t → Sectioned (s.threads u).prog := by
  intro u hu
  rcases hth u with ⟨h, _⟩ | ⟨h, _⟩
  · exact h
  · rcases ho with ho | ho
    · rw [ho] at h; exact absurd h (by simp)
    · rw [ho] at h
      exact absurd (Option.some.inj h).symm hu

/-- The invariant after a step of caller t, from what the step does to t. -/
theorem Invariant_update (c : Cmdline) (ops : Nat → List Op) (s s1 : Shared) (t : Nat)
    (h : Invariant c ops s)
    (hoth : ∀ u, u ≠ t → Sectioned (s.threads u).prog)
    (hthreads : ∀ u, u ≠ t → s1.threads u = s.threads u)
    (howner : s1.owner = some t ∨ s1.owner = none)
    (hstore : s1.store = applyLog c s1.log)
    (hlog : s1.log = s.log ∨ ∃ w, s1.log = s.log ++ [(t, w)])
    (ht : ThreadOK s1 t)
    (hlt : ∀ x, (s1.threads t).loaded = some x →
      ∃ n, n ≤ s1.log.length ∧ x = applyLog c (s1.log.take n))
    (hwt : (s1.log.filter (fun e => e.1 = t)).map Prod.snd ++ writesOf (s1.threads t).prog =
      (ops t).flatMap Op.writes) :
    Invariant c ops s1 := by
  obtain ⟨_, _, hloaded, hwrites⟩ := h
  refine ⟨hstore, ?_, ?_, ?_⟩
  · intro u
    by_cases hu : u = t
    · rw [hu]; exact ht
    · left
      refine ⟨by rw [hthreads u hu]; exact hoth u hu, ?_⟩
      rcases howner with ho | ho
      · rw [ho]; exact fun e => hu (Option.some.inj e).symm
      · rw [ho]; simp
  · intro u x hx
    by_cases hu : u = t
    · rw [hu] at hx; exact hlt x hx
    · rw [hthreads u hu] at hx
      obtain ⟨n, hn, e⟩ := hloaded u x hx
      rcases hlog with hl | ⟨w, hl⟩
      · rw [hl]; exact ⟨n, hn, e⟩
      · rw [hl]
        refine ⟨n, ?_, ?_⟩
        · rw [List.length_append]; exact Nat.le_trans hn (Nat.le_add_right _ _)
        · rw [List.take_append_of_le_length hn]; exact e
  · intro u
    by_cases hu : u = t
    · rw [hu]; exact hwt
    · rw [hthreads u hu]
      rcases hlog with hl | ⟨w, hl⟩
      · rw [hl]; exact hwrites u
      · rw [hl, List.filter_append]
        have : List.filter (fun e : Nat × Call => decide (e.1 = u)) [(t, w)] = [] := by
          have hne : ¬ t = u := fun e => hu e.symm
          simp [List.filter_cons, hne]
        rw [this, List.append_nil]
        exact hwrites u

theorem step_nil (s : Shared) (t : Nat) (h : (s.threads t).prog = []) : s.step t = s := by
  simp only [Shared.step, h]

theorem step_lock_held (s : Shared) (t : Nat) (rest : List Instr)
    (h : (s.threads t).prog = .lock :: rest) (ho : ¬ s.owner = none) : s.step t = s := by
  simp only [Shared.step, h, ho, if_false]

theorem step_lock_free (s : Shared) (t : Nat) (rest : List Instr)
    (h : (s.threads t).prog = .lock :: rest) (ho : s.owner = none) :
    s.step t =
      { store := s.store, owner := some t, log := s.log,
        threads := fun u =>
          if u = t then { prog := rest, loaded := (s.threads t).loaded } else s.threads u } := by
  simp only [Shared.step, h, ho, if_true]

theorem step_load (s : Shared) (t : Nat) (rest : List Instr)
    (h : (s.threads t).prog = .load :: rest) :
    s.step t =
      { store := s.store, owner := s.owner, log := s.log,
        threads := fun u =>
          if u = t then { prog := rest, loaded := some s.store } else s.threads u } := by
  simp only [Shared.step, h]

theorem step_store (s : Shared) (t : Nat) (w : Call) (rest : List Instr) (x : Cmdline)
    (h : (s.threads t).prog = .store w :: rest) (hx : (s.threads t).loaded = some x) :
    s.step t =
      { store := Call.run x w, owner := s.owner, log := s.log ++ [(t, w)],
        threads := fun u =>
          if u = t then { prog := rest, loaded := some x } else s.threads u } := by
  simp only [Shared.step, h, hx]

theorem step_unlock (s : Shared) (t : Nat) (rest : List Instr)
    (h : (s.threads t).prog = .unlock :: rest) :
    s.step t =
      { store := s.store, owner := none, log := s.log,
        threads := fun u =>
          if u = t then { prog := rest, loaded := (s.threads t).loaded } else s.threads u } := by
  simp only [Shared.step, h]

/-- A step of any caller keeps the invariant. -/
theorem Invariant_step (c : Cmdline) (ops : Nat → List Op) (s : Shared) (t : Nat)
    (h : Invariant c ops s) : Invariant c ops (s.step t) := by
  have h0 := h
  obtain ⟨hstore, hthread, hloaded, hwrites⟩ := h0
  have hw := hwrites t
  rcases hthread t with ⟨hsec, hown⟩ | ⟨hown, rest, hrest, hp | ⟨w, hp⟩ | hp | ⟨w, hp, hl⟩⟩
  · by_cases ho : s.owner = none
    · have hoth := others_sectioned s t hthread (Or.inl ho)
      generalize hprog : (s.threads t).prog = prog at hsec hw
      cases hsec with
      | nil => rw [step_nil s t hprog]; exact h
      | read rest hr =>
        rw [step_lock_free s t _ hprog ho]
        refine Invariant_update c ops s _ t h hoth (fun u hu => by simp [hu]) (Or.inl rfl)
          hstore (Or.inl rfl) ?_ ?_ ?_
        · right
          exact ⟨rfl, rest, hr, Or.inl (by simp)⟩
        · intro x hx
          simp only [if_true] at hx
          exact hloaded t x hx
        · simpa [writesOf] using hw
      | write call rest hr =>
        rw [step_lock_free s t _ hprog ho]
        refine Invariant_update c ops s _ t h hoth (fun u hu => by simp [hu]) (Or.inl rfl)
          hstore (Or.inl rfl) ?_ ?_ ?_
        · right
          exact ⟨rfl, rest, hr, Or.inr (Or.inl ⟨call, by simp⟩)⟩
        · intro x hx
          simp only [if_true] at hx
          exact hloaded t x hx
        · simpa [writesOf] using hw
    · generalize hprog : (s.threads t).prog = prog at hsec
      cases hsec with
      | nil => rw [step_nil s t hprog]; exact h
      | read rest hr => rw [step_lock_held s t _ hprog ho]; exact h
      | write call rest hr => rw [step_lock_held s t _ hprog ho]; exact h
  · have hoth := others_sectioned s t hthread (Or.inr hown)
    rw [step_load s t _ hp]
    refine Invariant_update c ops s _ t h hoth (fun u hu => by simp [hu]) (Or.inl hown)
      hstore (Or.inl rfl) ?_ ?_ ?_
    · right
      exact ⟨hown, rest, hrest, Or.inr (Or.inr (Or.inl (by simp)))⟩
    · intro x hx
      simp only [if_true, Option.some.injEq] at hx
      refine ⟨s.log.length, Nat.le_refl _, ?_⟩
      rw [List.take_length, ← hx]
      exact hstore
    · rw [hp] at hw
      simpa [writesOf] using hw
  · have hoth := others_sectioned s t hthread (Or.inr hown)
    rw [step_load s t _ hp]
    refine Invariant_update c ops s _ t h hoth (fun u hu => by simp [hu]) (Or.inl hown)
      hstore (Or.inl rfl) ?_ ?_ ?_
    · right
      exact ⟨hown, rest, hrest, Or.inr (Or.inr (Or.inr ⟨w, by simp, by simp⟩))⟩
    · intro x hx
      simp only [if_true, Option.some.injEq] at hx
      refine ⟨s.log.length, Nat.le_refl _, ?_⟩
      rw [List.take_length, ← hx]
      exact hstore
    · rw [hp] at hw
      simpa [writesOf] using hw
  · have hoth := others_sectioned s t hthread (Or.inr hown)
    rw [step_unlock s t _ hp]
    refine Invariant_update c ops s _ t h hoth (fun u hu => by simp [hu]) (Or.inr rfl)
      hstore (Or.inl rfl) ?_ ?_ ?_
    · left
      exact ⟨by simpa using hrest, by simp⟩
    · intro x hx
      simp only [if_true] at hx
      exact hloaded t x hx
    · rw [hp] at hw
      simpa [writesOf] using hw
  · have hoth := others_sectioned s t hthread (Or.inr hown)
    rw [step_store s t w _ s.store hp hl]
    refine Invariant_update c ops s _ t h hoth (fun u hu => by simp [hu]) (Or.inl hown)
      ?_ (Or.inr ⟨w, rfl⟩) ?_ ?_ ?_
    · show Call.run s.store w = applyLog c (s.log ++ [(t, w)])
      rw [applyLog_snoc, ← hstore]
    · right
      exact ⟨hown, rest, hrest, Or.inr (Or.inr (Or.inl (by simp)))⟩
    · intro x hx
      simp only [if_true, Option.some.injEq] at hx
      refine ⟨s.log.length, ?_, ?_⟩
      · simp
      · show x = applyLog c ((s.log ++ [(t, w)]).take s.log.length)
        rw [List.take_left' rfl, ← hx]
        exact hstore
    · rw [hp] at hw
      simp only [List.filter_append, List.map_append, if_true]
      simpa [writesOf, List.filter_cons] using hw

theorem Invariant_run (c : Cmdline) (ops : Nat → List Op) (schedule : List Nat) :
    Invariant c ops ((Shared.start c ops).run schedule) :=
  foldl_invariant (Invariant c ops) Shared.step
    (fun s t hs => Invariant_step c ops s t hs) schedule _ (Invariant_start c ops)

/-- Without the lock the run is not a succession of whole calls: when both
callers read before either writes, the write of caller 0 is lost. -/
theorem unlockedAppends_lost_update :
    (unlockedAppends.run [0, 1, 0, 1]).store =
      { Parameters := [⟨"a".toList, ["2".toList]⟩] } ∧
    applyLog unlockedAppends.store (unlockedAppends.run [0, 1, 0, 1]).log =
      { Parameters := [⟨"a".toList, ["1".toList, "2".toList]⟩] } := by
  decide

theorem not_Sectioned_of_ThreadOK (s : Shared) (t : Nat) (h : ThreadOK s t)
    (hn : ¬ Sectioned (s.threads t).prog) : s.owner = some t := by
  rcases h with ⟨hs, _⟩ | ⟨ho, _⟩
  · exact absurd hs hn
  · exact ho

/-! ## The claims -/

/-- C1: for every input string, the parameters of NewCmdline have pairwise
distinct keys, the keys are those of the white space delimited tokens and come
in the order of their first occurrence among the tokens, and the value list of
each entry is, in order, the values of the tokens that carry its key. -/
theorem NewCmdline_parse_spec (s : Str) :
    (keys (NewCmdline s).Parameters).Nodup ∧
    (∀ k, k ∈ keys (NewCmdline s).Parameters ↔ k ∈ (tokens s).map tokenKey) ∧
    (∀ a b, a ∈ (tokens s).map tokenKey → b ∈ (tokens s).map tokenKey →
      (firstIndex (keys (NewCmdline s).Parameters) a < firstIndex (keys (NewCmdline s).Parameters) b ↔
        firstIndex ((tokens s).map tokenKey) a < firstIndex ((tokens s).map tokenKey) b)) ∧
    (∀ p ∈ (NewCmdline s).Parameters,
      p.values = ((tokens s).filter (fun t => tokenKey t = p.key)).map tokenValue) := by
  have hk : keys (NewCmdline s).Parameters = addKeys [] ((tokens s).map tokenKey) := by
    simp only [NewCmdline, parse_eq, keys_insertAll, tokens, List.map_map]
    rfl
  have hnd : (keys (NewCmdline s).Parameters).Nodup := by
    rw [hk]; exact nodup_addKeys _ _ List.nodup_nil
  refine ⟨hnd, ?_, ?_, ?_⟩
  · intro k; rw [hk, mem_addKeys]; simp
  · intro a b ha hb; rw [hk]; exact firstIndex_addKeys _ a b ha hb
  · intro p hp
    have hf := find_of_mem _ hnd p hp
    simp only [NewCmdline, parse_eq] at hf
    rw [find_insertAll] at hf
    split at hf
    · simp only [Option.some.injEq] at hf
      have hv : p.values = valuesAt [] p.key ++ valuesFor ((Fields s).map tokenPair) p.key := by
        rw [← hf]
      rw [hv, valuesFor_tokenPair]
      simp [valuesAt, tokens]
    · simp at hf

/-- C2 as stated fails: the text made of one equals sign has one token, so
its keys are pairwise distinct; it parses to one parameter with the empty key
and one empty value, which is serialized as the empty text, and the empty text
parses to no parameter. -/
theorem NewCmdline_roundtrip_counterexample :
    ((tokens "=".toList).map tokenKey).Nodup ∧
    (NewCmdline "=".toList).Parameters = [⟨[], [[]]⟩] ∧
    (NewCmdline "=".toList).Parameters.String = [] ∧
    NewCmdline (NewCmdline "=".toList).Parameters.String ≠ NewCmdline "=".toList := by
  decide

/-- C2, amended: for every input string whose tokens have pairwise distinct
keys and none of whose tokens is the lone equals sign, parsing the
serialization of the parsed string gives the same parameters as parsing the
string. -/
theorem NewCmdline_roundtrip (s : Str) (hd : ((tokens s).map tokenKey).Nodup)
    (hne : ['='] ∉ tokens s) :
    NewCmdline (NewCmdline s).Parameters.String = NewCmdline s := by
  have he : emitted (parse s) = (tokens s).map written :=
    emitted_parse_of_adjacent s (Adjacent_of_nodup _ hd)
  have hw : ∀ w ∈ (tokens s).map written, IsWord w := by
    intro w hw
    obtain ⟨t, ht, rfl⟩ := List.mem_map.1 hw
    exact IsWord_written t (Fields_words s t ht) (fun e => hne (e ▸ ht))
  have hs : (parse s).String = Join ((tokens s).map written) [' '] := by
    rw [String_eq_Join _ (by rw [he]; exact hw), he]
  simp only [NewCmdline, hs]
  congr 1
  rw [parse_eq, Fields_Join _ hw, parse_eq, List.map_map]
  congr 1
  apply List.map_congr_left
  intro t _
  exact tokenPair_written t

/-- C2, amended, at a concrete text with irregular white space. -/
theorem NewCmdline_roundtrip_witness :
    NewCmdline (NewCmdline "  quiet   console=ttyS0 root= ".toList).Parameters.String =
      NewCmdline "  quiet   console=ttyS0 root= ".toList :=
  NewCmdline_roundtrip _ (by decide) (by decide)

/-- C3 (the code departs from the claim): on a non-nil Parameter with one
value, Get with index -1 passes the length test and faults on the index
expression instead of returning the absent result. -/
theorem Parameter_Get_negative_index_faults :
    Parameter.Get (some ⟨['k'], [['v']]⟩) (-1) = Except.error Fault.indexOutOfRange := by
  rfl

/-- C4 as stated fails: on the store of the text b, the call
Set (a, NewParameter(b)) appends a second entry with key b. -/
theorem Cmdline_keys_unique_counterexample :
    ¬ (keys ([Call.set "a".toList (NewParameter "b".toList)].foldl Call.run
        (NewCmdline "b".toList)).Parameters).Nodup := by
  decide

/-- C4, amended: every store obtained from NewCmdline by a finite sequence of
Set, SetAll, Append and AppendAll calls, in which every Set call passes a
parameter that carries the key it is stored under, has pairwise distinct keys. -/
theorem Cmdline_keys_unique (s : Str) (calls : List Call) (h : ∀ call ∈ calls, call.keyed) :
    (keys (calls.foldl Call.run (NewCmdline s)).Parameters).Nodup := by
  have base : (keys (NewCmdline s).Parameters).Nodup := nodup_parse s
  generalize NewCmdline s = c at base
  induction calls generalizing c with
  | nil => exact base
  | cons call rest ih =>
    have hrest : ∀ x ∈ rest, x.keyed := fun x hx => h x (List.mem_cons_of_mem _ hx)
    have hcall : call.keyed := h call (List.mem_cons_self _ _)
    refine ih hrest (Call.run c call) ?_
    cases call with
    | set k p => exact nodup_Set c k p hcall base
    | setAll args => exact nodup_SetAll c args base
    | append k v => exact nodup_Append c k v base
    | appendAll args opts => exact nodup_AppendAll c args opts base

/-- C4, amended, at a concrete run: a keyed Set, an Append, a SetAll and an
AppendAll on the store of the text quiet console=ttyS0. -/
theorem Cmdline_keys_unique_witness :
    (keys ([Call.set "quiet".toList ((NewParameter "quiet".toList).Append "1".toList),
        Call.append "console".toList "ttyS1".toList,
        Call.setAll ["root=/dev/sda1".toList],
        Call.appendAll ["console=ttyAMA0".toList, "init=/sbin/init".toList]
          [WithOverwriteArgs ["console".toList]]].foldl Call.run
      (NewCmdline "quiet console=ttyS0".toList)).Parameters).Nodup :=
  Cmdline_keys_unique _ _ (by
    intro call hc
    simp only [List.mem_cons, List.mem_singleton, List.not_mem_nil, or_false] at hc
    rcases hc with rfl | rfl | rfl | rfl
    · rfl
    · trivial
    · trivial
    · trivial)

/-- C5: on a store with pairwise distinct keys, after AppendAll with the
overwrite list O the keys are again pairwise distinct; a key in O that occurs
in args has exactly the values of its tokens of args, in order; a key not in O
that occurs in args has its prior values (none if it was absent) followed by
the values of its tokens of args, in order. -/
theorem Cmdline_AppendAll_values (c : Cmdline) (args O : List Str)
    (hc : (keys c.Parameters).Nodup) :
    (keys (c.AppendAll args [WithOverwriteArgs O]).Parameters).Nodup ∧
    (∀ K, K ∈ O → K ∈ (argTokens args).map tokenKey →
      (c.AppendAll args [WithOverwriteArgs O]).Get K =
        some ⟨K, ((argTokens args).filter (fun t => tokenKey t = K)).map tokenValue⟩) ∧
    (∀ J, J ∉ O → J ∈ (argTokens args).map tokenKey →
      (c.AppendAll args [WithOverwriteArgs O]).Get J =
        some ⟨J, c.valuesOf J ++
          ((argTokens args).filter (fun t => tokenKey t = J)).map tokenValue⟩) := by
  refine ⟨nodup_AppendAll c args _ hc, ?_, ?_⟩
  · intro K hO hK
    have ht : tokens (Join args [' ']) = argTokens args := Fields_Join_args args
    rw [← ht] at hK ⊢
    obtain ⟨hf, hv⟩ := find_parse _ K hK
    have hmem := (mem_of_find _ _ _ hf).1
    have := find_foldl_mergeStep O _ c (nodup_parse _) _ hmem hv
    rw [AppendAll_eq]
    simp only [Cmdline.Get]
    simp only [hO, if_true] at this
    exact this
  · intro J hO hJ
    have ht : tokens (Join args [' ']) = argTokens args := Fields_Join_args args
    rw [← ht] at hJ ⊢
    obtain ⟨hf, hv⟩ := find_parse _ J hJ
    have hmem := (mem_of_find _ _ _ hf).1
    have := find_foldl_mergeStep O _ c (nodup_parse _) _ hmem hv
    rw [AppendAll_eq]
    simp only [Cmdline.Get]
    simp only [hO, if_false] at this
    exact this

/-- C5 at a concrete store: console is overwritten, init is new and root
accumulates on the store of quiet console=ttyS0 console=ttyS1 root=/dev/sda1. -/
theorem Cmdline_AppendAll_values_witness :
    (keys (NewCmdline "quiet console=ttyS0 console=ttyS1 root=/dev/sda1".toList).Parameters).Nodup ∧
    ((NewCmdline "quiet console=ttyS0 console=ttyS1 root=/dev/sda1".toList).AppendAll
      ["console=ttyAMA0".toList, "init=/sbin/init root=/dev/sdb".toList]
      [WithOverwriteArgs ["console".toList]]).Get "console".toList =
        some ⟨"console".toList, ["ttyAMA0".toList]⟩ ∧
    ((NewCmdline "quiet console=ttyS0 console=ttyS1 root=/dev/sda1".toList).AppendAll
      ["console=ttyAMA0".toList, "init=/sbin/init root=/dev/sdb".toList]
      [WithOverwriteArgs ["console".toList]]).Get "root".toList =
        some ⟨"root".toList, ["/dev/sda1".toList, "/dev/sdb".toList]⟩ :=
  ⟨by decide,
   (Cmdline_AppendAll_values
      (NewCmdline "quiet console=ttyS0 console=ttyS1 root=/dev/sda1".toList)
      ["console=ttyAMA0".toList, "init=/sbin/init root=/dev/sdb".toList]
      ["console".toList] (by decide)).2.1 "console".toList (by decide) (by decide),
   (Cmdline_AppendAll_values
      (NewCmdline "quiet console=ttyS0 console=ttyS1 root=/dev/sda1".toList)
      ["console=ttyAMA0".toList, "init=/sbin/init root=/dev/sdb".toList]
      ["console".toList] (by decide)).2.2 "root".toList (by decide) (by decide)⟩

/-- C6: Set on a store that has an entry with key k keeps the number of
entries, puts p at the index of the first entry with key k and leaves every
other index unchanged; on a store without key k it appends p as last entry. -/
theorem Cmdline_Set_frame (c : Cmdline) (k : Str) (p : Parameter) :
    (k ∈ keys c.Parameters →
      (c.Set k p).Parameters.length = c.Parameters.length ∧
      (c.Set k p).Parameters[firstIndex (keys c.Parameters) k]? = some p ∧
      ∀ j, j ≠ firstIndex (keys c.Parameters) k →
        (c.Set k p).Parameters[j]? = c.Parameters[j]?) ∧
    (k ∉ keys c.Parameters → (c.Set k p).Parameters = c.Parameters ++ [p]) := by
  constructor
  · intro h
    have hi : firstIndex (keys c.Parameters) k < c.Parameters.length := by
      have := (firstIndex_lt_length _ _).2 h
      simpa [keys] using this
    simp only [Cmdline.Set, setLoop_of_mem _ _ _ h, List.length_set]
    refine ⟨trivial, ?_, ?_⟩
    · simp [List.getElem?_set, hi]
    · intro j hj
      rw [List.getElem?_set_ne (Ne.symm hj)]
  · intro h
    simp only [Cmdline.Set, setLoop_of_not_mem _ _ _ h]

/-- C7: for every input string that is its tokens joined by single spaces, in
which all tokens sharing a key are next to each other and no token has an
empty value after its first equals sign, the serialization of the parsed
string is the string itself. -/
theorem NewCmdline_String_unchanged (s : Str) (hs : Join (tokens s) [' '] = s)
    (hadj : Adjacent ((tokens s).map tokenKey))
    (hval : ∀ t ∈ tokens s, '=' ∈ t → tokenValue t ≠ []) :
    (NewCmdline s).Parameters.String = s := by
  have he : emitted (parse s) = tokens s := by
    rw [emitted_parse_of_adjacent s hadj]
    conv_rhs => rw [← List.map_id (tokens s)]
    apply List.map_congr_left
    intro t ht
    exact written_eq_self t (hval t ht)
  have hw : ∀ w ∈ emitted (parse s), IsWord w := by
    rw [he]; exact Fields_words s
  simp only [NewCmdline]
  rw [String_eq_Join _ hw, he, hs]

/-- C7 at the text quiet console=ttyS0 console=ttyS1 root=/dev/sda1. -/
theorem NewCmdline_String_unchanged_witness :
    (NewCmdline "quiet console=ttyS0 console=ttyS1 root=/dev/sda1".toList).Parameters.String =
      "quiet console=ttyS0 console=ttyS1 root=/dev/sda1".toList :=
  NewCmdline_String_unchanged _ (by decide) (by decide) (by decide)

/-- C8 as stated fails: for the empty text Strings returns one token, the
empty text, though the store has no value; for the text a= the token of the
result with key a is the bare a, not the original a=; for the text made of a,
a space and an equals sign the store has two values and Strings returns one
token. -/
theorem NewCmdline_Strings_counterexample :
    ((NewCmdline []).Parameters.Strings = [[]] ∧ emitted (NewCmdline []).Parameters = []) ∧
    ((NewCmdline "a=".toList).Parameters.Strings.filter (fun t => tokenKey t = "a".toList) =
        ["a".toList] ∧
      (tokens "a=".toList).filter (fun t => tokenKey t = "a".toList) = ["a=".toList]) ∧
    ((NewCmdline "a =".toList).Parameters.Strings = ["a".toList] ∧
      emitted (NewCmdline "a =".toList).Parameters = ["a".toList, []]) := by
  decide

/-- C8, amended: for every input string that has at least one token and no
token that is the lone equals sign, Strings on the parsed store returns
exactly one token per value per parameter, in parameter order then value
order (the bare key for an empty value, key=value otherwise), and for every
key the tokens of the result carrying that key are, in order, the original
tokens carrying that key, a token with an empty value written as its bare
key. -/
theorem NewCmdline_Strings (s : Str) (h1 : tokens s ≠ []) (h2 : ['='] ∉ tokens s) :
    (NewCmdline s).Parameters.Strings = emitted (NewCmdline s).Parameters ∧
    ∀ k, (NewCmdline s).Parameters.Strings.filter (fun t => tokenKey t = k) =
      ((tokens s).filter (fun t => tokenKey t = k)).map written := by
  have hw : ∀ w ∈ emitted (parse s), IsWord w := by
    intro w hw
    obtain ⟨t, ht, rfl⟩ := emitted_parse_mem s w hw
    exact IsWord_written t (Fields_words s t ht) (fun e => h2 (e ▸ ht))
  have hne : emitted (parse s) ≠ [] := by
    cases hT : tokens s with
    | nil => exact absurd hT h1
    | cons t T =>
      have hk : tokenKey t ∈ keys (parse s) := by
        rw [keys_parse, mem_addKeys, hT]; simp
      obtain ⟨p, hp, _⟩ := List.mem_map.1 hk
      have hv : p.values ≠ [] := by
        have := values_insertAll ((Fields s).map tokenPair) p (by rw [← parse_eq]; exact hp)
        exact this
      obtain ⟨v, hv1⟩ := List.exists_mem_of_ne_nil _ hv
      intro e
      have : tokenOf p.key v ∈ emitted (parse s) := by
        simp only [emitted, List.mem_flatMap, List.mem_map]
        exact ⟨p, hp, v, hv1, rfl⟩
      rw [e] at this
      simp at this
  have hS : (parse s).Strings = emitted (parse s) := by
    unfold Parameters.Strings Split
    rw [String_eq_Join _ hw]
    unfold Join
    refine List.splitOn_intercalate _ ' ' ?_ hne
    intro w hw1 hsp
    have := (hw w hw1).2 _ hsp
    exact absurd this (by decide)
  refine ⟨hS, ?_⟩
  intro k
  simp only [NewCmdline]
  rw [hS, emitted_filter _ k (nodup_parse s)
    (fun p hp => by
      obtain ⟨t, _, e⟩ := List.mem_map.1 (key_parse s p hp)
      rw [← e]; exact not_mem_tokenKey t)]
  have hv := valuesAt_insertAll_nil ((Fields s).map tokenPair) k
  rw [← parse_eq, valuesFor_tokenPair] at hv
  rw [hv, List.map_map]
  apply List.map_congr_left
  intro t ht
  have hk : tokenKey t = k := by simpa using (List.mem_filter.1 ht).2
  simp only [Function.comp]
  rw [← hk, tokenOf_tokenPair]

/-- C8, amended, at a concrete text with a repeated key and an empty value. -/
theorem NewCmdline_Strings_witness :
    (NewCmdline "console=ttyS0 quiet root= console=ttyS1".toList).Parameters.Strings =
      ["console=ttyS0".toList, "console=ttyS1".toList, "quiet".toList, "root".toList] ∧
    (NewCmdline "console=ttyS0 quiet root= console=ttyS1".toList).Parameters.Strings =
      emitted (NewCmdline "console=ttyS0 quiet root= console=ttyS1".toList).Parameters :=
  ⟨by decide,
   (NewCmdline_Strings "console=ttyS0 quiet root= console=ttyS1".toList
      (by decide) (by decide)).1⟩

/-- C9: on a store without an entry for k, Append (k, v) gives the same store
as Set (k, NewParameter(k).Append(v)): the old entries followed by one new
entry with key k and the single value v. -/
theorem Cmdline_Append_absent (c : Cmdline) (k v : Str) (h : k ∉ keys c.Parameters) :
    c.Append k v = c.Set k ((NewParameter k).Append v) ∧
    (c.Append k v).Parameters = c.Parameters ++ [⟨k, [v]⟩] := by
  have e1 : (c.Append k v).Parameters = c.Parameters ++ [⟨k, [v]⟩] := by
    rw [Append_Parameters, insert_of_not_mem _ _ _ h]
  refine ⟨?_, e1⟩
  have e2 : (c.Set k ((NewParameter k).Append v)).Parameters = c.Parameters ++ [⟨k, [v]⟩] := by
    simp [Cmdline.Set, setLoop_of_not_mem _ _ _ h, NewParameter, Parameter.Append]
  cases hc : c.Append k v with
  | mk ps =>
    cases hs : c.Set k ((NewParameter k).Append v) with
    | mk qs =>
      rw [hc] at e1; rw [hs] at e2
      simp only at e1 e2
      rw [e1, e2]

/-- C9 at a concrete store: appending init=/sbin/init to the store of
the text quiet. -/
theorem Cmdline_Append_absent_witness :
    "init".toList ∉ keys (NewCmdline "quiet".toList).Parameters ∧
    (NewCmdline "quiet".toList).Append "init".toList "/sbin/init".toList =
      (NewCmdline "quiet".toList).Set "init".toList
        ((NewParameter "init".toList).Append "/sbin/init".toList) ∧
    ((NewCmdline "quiet".toList).Append "init".toList "/sbin/init".toList).Parameters =
      (NewCmdline "quiet".toList).Parameters ++ [⟨"init".toList, ["/sbin/init".toList]⟩] :=
  ⟨by decide, Cmdline_Append_absent _ _ _ (by decide)⟩

/-- C10 as stated fails: after NewCmdline("a b"), p := NewParameter("a"),
Set("a", p) and Set("b", p) both slots of the store hold the pointer p; the
first entry with key a is at index 0, and Append("a", "x") writes through p,
so the entry at index 1 changes as well. -/
theorem Cmdline_Append_shared_counterexample :
    sharedSlots.view.Parameters = [⟨"a".toList, []⟩, ⟨"a".toList, []⟩] ∧
    firstIndex (keys sharedSlots.view.Parameters) "a".toList = 0 ∧
    (sharedSlots.Append "a".toList "x".toList).view.Parameters =
      [⟨"a".toList, ["x".toList]⟩, ⟨"a".toList, ["x".toList]⟩] ∧
    (sharedSlots.Append "a".toList "x".toList).view.Parameters[1]? ≠
      sharedSlots.view.Parameters[1]? := by
  decide

/-- C10, amended: on a store that has an entry for k and in which no other
slot holds the same Parameter object as the first entry with key k, Append
(k, v) gives the first entry with key k its prior values followed by v, and
leaves every other entry, the number of entries and the order of the keys
unchanged. -/
theorem Memory_Append_present (m : Memory) (k v : Str) (h : k ∈ keys m.view.Parameters)
    (hown : ∀ j < m.slots.length, j ≠ firstIndex (keys m.view.Parameters) k →
      m.slots[j]? ≠ m.slots[firstIndex (keys m.view.Parameters) k]?) :
    (∃ q, m.view.Parameters[firstIndex (keys m.view.Parameters) k]? = some q ∧ q.key = k ∧
      (m.Append k v).view.Parameters[firstIndex (keys m.view.Parameters) k]? =
        some ⟨k, q.values ++ [v]⟩) ∧
    (∀ j, j ≠ firstIndex (keys m.view.Parameters) k →
      (m.Append k v).view.Parameters[j]? = m.view.Parameters[j]?) ∧
    (m.Append k v).view.Parameters.length = m.view.Parameters.length ∧
    keys (m.Append k v).view.Parameters = keys m.view.Parameters := by
  rw [Memory_Append_view m k v h hown]
  exact Append_frame_of_mem m.view k v h

/-- C10, amended, at a concrete store: appending ttyS2 to the console entry
of the store of the text quiet console=ttyS0 console=ttyS1 root=/dev/sda1. -/
theorem Memory_Append_present_witness :
    ((Memory.NewCmdline "quiet console=ttyS0 console=ttyS1 root=/dev/sda1".toList).Append
      "console".toList "ttyS2".toList).view.Get "console".toList =
      some ⟨"console".toList, ["ttyS0".toList, "ttyS1".toList, "ttyS2".toList]⟩ ∧
    keys ((Memory.NewCmdline "quiet console=ttyS0 console=ttyS1 root=/dev/sda1".toList).Append
      "console".toList "ttyS2".toList).view.Parameters =
      keys (Memory.NewCmdline
        "quiet console=ttyS0 console=ttyS1 root=/dev/sda1".toList).view.Parameters :=
  ⟨by decide, (Memory_Append_present
      (Memory.NewCmdline "quiet console=ttyS0 console=ttyS1 root=/dev/sda1".toList)
      "console".toList "ttyS2".toList (by decide) (by decide)).2.2.2⟩

/-- C11: on a store with pairwise distinct keys, AppendAll with the overwrite
list O leaves every entry whose key does not occur in args unchanged at its
index (whether or not the key is in O), keeps every prior key at its index,
has as keys the prior keys and the keys of args, pairwise distinct, and places
the keys that are new to the store after all prior entries, in the order of
their first occurrence in args. -/
theorem Cmdline_AppendAll_frame (c : Cmdline) (args O : List Str)
    (hc : (keys c.Parameters).Nodup) :
    (∀ (i : Nat) (q : Parameter), c.Parameters[i]? = some q →
      q.key ∉ (argTokens args).map tokenKey →
      (c.AppendAll args [WithOverwriteArgs O]).Parameters[i]? = some q) ∧
    (∀ i, i < c.Parameters.length →
      (keys (c.AppendAll args [WithOverwriteArgs O]).Parameters)[i]? =
        (keys c.Parameters)[i]?) ∧
    (keys (c.AppendAll args [WithOverwriteArgs O]).Parameters).Nodup ∧
    (∀ k, k ∈ keys (c.AppendAll args [WithOverwriteArgs O]).Parameters ↔
      k ∈ keys c.Parameters ∨ k ∈ (argTokens args).map tokenKey) ∧
    (∀ a, a ∈ (argTokens args).map tokenKey → a ∉ keys c.Parameters →
      c.Parameters.length ≤
        firstIndex (keys (c.AppendAll args [WithOverwriteArgs O]).Parameters) a) ∧
    (∀ a b, a ∈ (argTokens args).map tokenKey → b ∈ (argTokens args).map tokenKey →
      a ∉ keys c.Parameters → b ∉ keys c.Parameters →
      (firstIndex (keys (c.AppendAll args [WithOverwriteArgs O]).Parameters) a <
          firstIndex (keys (c.AppendAll args [WithOverwriteArgs O]).Parameters) b ↔
        firstIndex ((argTokens args).map tokenKey) a <
          firstIndex ((argTokens args).map tokenKey) b)) := by
  have hk := keys_AppendAll c args O
  obtain ⟨more, hmore⟩ := addKeys_prefix ((argTokens args).map tokenKey) (keys c.Parameters)
  refine ⟨?_, ?_, nodup_AppendAll c args _ hc, ?_, ?_, ?_⟩
  · intro i q hq hnot
    rw [AppendAll_eq]
    refine foldl_mergeStep_getElem_ne O q i _ c ?_ hq
    intro p hp e
    have := key_parse _ p hp
    rw [show tokens (Join args [' ']) = argTokens args from Fields_Join_args args, ← e] at this
    exact hnot this
  · intro i hi
    rw [hk, ← hmore]
    exact List.getElem?_append_left (by simpa [keys] using hi)
  · intro k; rw [hk, mem_addKeys]
  · intro a _ hnot
    rw [hk, ← hmore]
    have h1 : ¬ firstIndex (keys c.Parameters) a < (keys c.Parameters).length :=
      fun h => hnot ((firstIndex_lt_length _ _).1 h)
    unfold firstIndex at h1 ⊢
    rw [List.findIdx_append, if_neg h1]
    simp [keys]
  · intro a b ha hb hna hnb
    rw [hk]
    exact firstIndex_addKeys_new _ _ a b ha hb hna hnb

/-- C11 at a concrete store: quiet is untouched, and init comes after the
three prior entries of quiet console=ttyS0 console=ttyS1 root=/dev/sda1. -/
theorem Cmdline_AppendAll_frame_witness :
    ((NewCmdline "quiet console=ttyS0 console=ttyS1 root=/dev/sda1".toList).AppendAll
      ["console=ttyAMA0".toList, "init=/sbin/init".toList]
      [WithOverwriteArgs ["console".toList, "quiet".toList]]).Parameters[0]? =
        some ⟨"quiet".toList, [[]]⟩ ∧
    keys ((NewCmdline "quiet console=ttyS0 console=ttyS1 root=/dev/sda1".toList).AppendAll
      ["console=ttyAMA0".toList, "init=/sbin/init".toList]
      [WithOverwriteArgs ["console".toList, "quiet".toList]]).Parameters =
        ["quiet".toList, "console".toList, "root".toList, "init".toList] :=
  ⟨(Cmdline_AppendAll_frame
      (NewCmdline "quiet console=ttyS0 console=ttyS1 root=/dev/sda1".toList)
      ["console=ttyAMA0".toList, "init=/sbin/init".toList]
      ["console".toList, "quiet".toList] (by decide)).1 0 ⟨"quiet".toList, [[]]⟩
      (by decide) (by decide),
   by decide⟩

/-- C12: for every input string and every key, the chained lookup
NewCmdline(s).Get(k).First() does not fault: it returns the absent result when
no token has key k, and otherwise the value of the first token with key k (the
empty text for a bare flag). -/
theorem NewCmdline_Get_First (s k : Str) :
    Parameter.First ((NewCmdline s).Get k) =
      Except.ok (((tokens s).find? (fun t => tokenKey t = k)).map tokenValue) := by
  rw [Parameter_First_eq]
  congr 1
  simp only [Cmdline.Get, NewCmdline]
  by_cases hk : k ∈ (tokens s).map tokenKey
  · rw [(find_parse s k hk).1]
    simp only [Option.bind, List.head?_map, List.filter_head?]
  · have h1 : (tokens s).find? (fun t => tokenKey t = k) = none := by
      rw [List.find?_eq_none]
      intro t ht e
      exact hk (List.mem_map.2 ⟨t, ht, by simpa using e⟩)
    have h2 : (parse s).find? (fun q => q.key = k) = none := by
      rw [List.find?_eq_none]
      intro q hq e
      have := key_parse s q hq
      rw [show q.key = k by simpa using e] at this
      exact hk this
    rw [h1, h2]
    rfl

/-- C13: for every non-empty key K without white space and without equals
sign, the texts K and K= parse to the same store: one parameter K whose value
list is the single empty text; both are serialized as the bare text K. -/
theorem NewCmdline_flag_conflated (K : Str) (h1 : K ≠ [])
    (h2 : ∀ c ∈ K, isSpace c = false) (h3 : '=' ∉ K) :
    NewCmdline K = NewCmdline (K ++ ['=']) ∧
    (NewCmdline K).Parameters = [⟨K, [[]]⟩] ∧
    (NewCmdline K).Parameters.String = K ∧
    (NewCmdline (K ++ ['='])).Parameters.String = K := by
  have hw : IsWord K := ⟨h1, h2⟩
  have hw2 : IsWord (K ++ ['=']) := by
    refine ⟨by simp, ?_⟩
    intro c hc
    rcases List.mem_append.1 hc with h | h
    · exact h2 c h
    · simp at h; subst h; decide
  have e1 : parse K = [⟨K, [[]]⟩] := by
    rw [parse_word K hw, (tokenKey_of_not_mem K h3).1, (tokenKey_of_not_mem K h3).2]
  have e2 : parse (K ++ ['=']) = [⟨K, [[]]⟩] := by
    have := tokenPair_key_eq_value K [] h3
    simp only [tokenPair, Prod.mk.injEq] at this
    rw [parse_word _ hw2, this.1, this.2]
  have e3 : Parameters.String [⟨K, [[]]⟩] = K := by
    have he : emitted [⟨K, [[]]⟩] = [K] := by simp [emitted, tokenOf]
    rw [String_eq_Join _ (by rw [he]; intro w hw1; simp at hw1; subst hw1; exact hw), he]
    simp [Join, List.intercalate]
  simp only [NewCmdline, e1, e2]
  exact ⟨trivial, trivial, e3, e3⟩

/-- C13 at the key quiet. -/
theorem NewCmdline_flag_conflated_witness :
    NewCmdline "quiet".toList = NewCmdline "quiet=".toList ∧
    (NewCmdline "quiet".toList).Parameters = [⟨"quiet".toList, [[]]⟩] ∧
    (NewCmdline "quiet".toList).Parameters.String = "quiet".toList ∧
    (NewCmdline "quiet=".toList).Parameters.String = "quiet".toList :=
  NewCmdline_flag_conflated "quiet".toList (by decide) (by decide) (by decide)

/-- C14: a token is split on its first equals sign only: for every key K
without equals sign and white space and every value V without white space
(with any number of equals signs), the text K=V parses to exactly one
parameter, with key K and the single value V. -/
theorem NewCmdline_split_first_equals (K V : Str) (hK : '=' ∉ K)
    (hK2 : ∀ c ∈ K, isSpace c = false) (hV : ∀ c ∈ V, isSpace c = false) :
    (NewCmdline (K ++ ['='] ++ V)).Parameters = [⟨K, [V]⟩] := by
  have e : K ++ ['='] ++ V = K ++ '=' :: V := by simp
  have hw : IsWord (K ++ '=' :: V) := by
    refine ⟨by simp, ?_⟩
    intro c hc
    rcases List.mem_append.1 hc with h | h
    · exact hK2 c h
    · rcases List.mem_cons.1 h with h | h
      · subst h; decide
      · exact hV c h
  have := tokenPair_key_eq_value K V hK
  simp only [tokenPair, Prod.mk.injEq] at this
  simp only [NewCmdline]
  rw [e, parse_word _ hw, this.1, this.2]

/-- C14 at a value that contains equals signs. -/
theorem NewCmdline_split_first_equals_witness :
    (NewCmdline "root=UUID=a=b".toList).Parameters =
      [⟨"root".toList, ["UUID=a=b".toList]⟩] :=
  NewCmdline_split_first_equals "root".toList "UUID=a=b".toList
    (by decide) (by decide) (by decide)

/-- C15: parsing the empty text gives a store with no parameter whose
serialization is the empty text; for every input string the parsed store has
no parameter exactly when the string consists of white space only, and its
serialization is then the empty text. -/
theorem NewCmdline_empty (s : Str) :
    (NewCmdline []).Parameters = [] ∧
    (NewCmdline []).Parameters.String = [] ∧
    ((NewCmdline s).Parameters = [] ↔ ∀ c ∈ s, isSpace c = true) ∧
    ((∀ c ∈ s, isSpace c = true) → (NewCmdline s).Parameters.String = []) := by
  have h0 : parse [] = [] := (parse_eq_nil []).2 (by simp)
  have hS : Parameters.String [] = [] := by
    simp [Parameters.String, Parameters.render, TrimRight]
  refine ⟨h0, ?_, parse_eq_nil s, ?_⟩
  · simp only [NewCmdline, h0, hS]
  · intro h
    simp only [NewCmdline, (parse_eq_nil s).2 h, hS]

/-- C16: Contains is true exactly when the receiver is not nil and the text is
one of its values, which is to say when Get returns the text for some index;
on a nil receiver it is false. -/
theorem Parameter_Contains_iff (v : Option Parameter) (s : Str) :
    (Parameter.Contains v s = true ↔ ∃ p, v = some p ∧ s ∈ p.values) ∧
    (Parameter.Contains v s = true ↔ ∃ i : Int, Parameter.Get v i = Except.ok (some s)) ∧
    Parameter.Contains none s = false := by
  have hA : Parameter.Contains v s = true ↔ ∃ p, v = some p ∧ s ∈ p.values := by
    cases v with
    | none => simp [Parameter.Contains]
    | some p =>
      simp only [Parameter.Contains, List.any_eq_true, beq_iff_eq, Option.some.injEq,
        exists_eq_left']
      constructor
      · rintro ⟨x, hx, rfl⟩; exact hx
      · intro h; exact ⟨s, h, rfl⟩
  refine ⟨hA, ?_, rfl⟩
  rw [hA]
  constructor
  · rintro ⟨p, rfl, hs⟩
    obtain ⟨n, hn⟩ := List.get?_of_mem hs
    exact ⟨(n : Int), by rw [Parameter_Get_of_nonneg, hn]⟩
  · rintro ⟨i, hi⟩
    cases v with
    | none => rw [Parameter_Get_nil] at hi; simp at hi
    | some p =>
      refine ⟨p, rfl, ?_⟩
      by_cases hneg : i < 0
      · rw [Parameter_Get_of_neg p i hneg] at hi
        simp at hi
      · obtain ⟨n, rfl⟩ := Int.eq_ofNat_of_zero_le (not_lt.1 hneg)
        rw [Parameter_Get_of_nonneg] at hi
        simp only [Except.ok.injEq] at hi
        exact List.get?_mem hi

/-- C17: across any sequence of calls of ProcCmdline the external source is
read once, by the first call; when the read succeeds every call returns the
store parsed from what was read; when it fails the first call panics with the
error and every later call returns without a new read. -/
theorem ProcCmdline_reads_once (source : Nat → Except Str Str) (n : Nat) :
    (ProcCmdlineCalls source 0 Package.start).2.reads = 0 ∧
    (ProcCmdline source Package.start).2.reads = 1 ∧
    (ProcCmdlineCalls source (n + 1) Package.start).2.reads = 1 ∧
    (∀ text, source 0 = Except.ok text →
      (ProcCmdlineCalls source (n + 1) Package.start).1 =
        List.replicate (n + 1) (Except.ok (some (NewCmdline text)))) ∧
    (∀ err, source 0 = Except.error err →
      (ProcCmdlineCalls source (n + 1) Package.start).1 =
        Except.error (Fault.readError err) :: List.replicate n (Except.ok none)) := by
  have hstep : ∀ text, source 0 = Except.ok text →
      ProcCmdline source Package.start =
        (Except.ok (some (NewCmdline text)),
          { onceDone := true, inst := some (NewCmdline text), reads := 1 }) := by
    intro text h
    simp [ProcCmdline, Package.start, h, read, NewCmdline]
  have hfail : ∀ err, source 0 = Except.error err →
      ProcCmdline source Package.start =
        (Except.error (Fault.readError err),
          { onceDone := true, inst := none, reads := 1 }) := by
    intro err h
    simp [ProcCmdline, Package.start, h, read]
  refine ⟨rfl, ?_, ?_, ?_, ?_⟩
  · cases h : source 0 with
    | ok text => rw [hstep text h]
    | error err => rw [hfail err h]
  · cases h : source 0 with
    | ok text =>
      simp only [ProcCmdlineCalls, hstep text h]
      rw [ProcCmdlineCalls_done source n _ rfl]
    | error err =>
      simp only [ProcCmdlineCalls, hfail err h]
      rw [ProcCmdlineCalls_done source n _ rfl]
  · intro text h
    simp only [ProcCmdlineCalls, hstep text h]
    rw [ProcCmdlineCalls_done source n _ rfl]
    rfl
  · intro err h
    simp only [ProcCmdlineCalls, hfail err h]
    rw [ProcCmdlineCalls_done source n _ rfl]

/-- C18 as stated fails: while caller 0 runs AppendAll with the arguments
a=1 and b=2 on the empty store, the mutex is free after its first four steps
although four of its steps are still to come, and a Get by caller 1 that runs
then reads the store with a=1 alone, which is neither the store before the
merge nor the store after it. -/
theorem Cmdline_AppendAll_not_atomic_counterexample :
    ((Shared.start (NewCmdline []) mergeAndGet).run [0, 0, 0, 0]).owner = none ∧
    (((Shared.start (NewCmdline []) mergeAndGet).run [0, 0, 0, 0]).threads 0).prog.length = 4 ∧
    (((Shared.start (NewCmdline []) mergeAndGet).run
        [0, 0, 0, 0, 1, 1, 1, 0, 0, 0, 0]).threads 1).loaded =
      some (NewCmdline "a=1".toList) ∧
    NewCmdline "a=1".toList ≠ NewCmdline [] ∧
    NewCmdline "a=1".toList ≠ (NewCmdline []).AppendAll ["a=1".toList, "b=2".toList] [] ∧
    ((Shared.start (NewCmdline []) mergeAndGet).run
        [0, 0, 0, 0, 1, 1, 1, 0, 0, 0, 0]).store =
      (NewCmdline []).AppendAll ["a=1".toList, "b=2".toList] [] := by
  decide

/-- C18, amended: every call of Get, Set and Append is one critical section
under the lock of the store, and a call of SetAll or AppendAll takes no lock
of its own but is the succession of the calls of Set and Append it makes.
So, for every initial store, every assignment of calls to callers and every
interleaving of their steps: the store is the result of running one after
another the calls of Set and Append that have written so far; a caller inside
a critical section holds the mutex, so no two callers are inside one at the
same time; what a call has read is the store left by a whole number of the
calls that have written; and the calls that have written are, caller by
caller, the calls of Set and Append of that caller in their order. The calls
of Set and Append that make up a call, run one after another, give the store
that the call gives when it runs alone. -/
theorem Cmdline_calls_atomic (c : Cmdline) (ops : Nat → List Op) (schedule : List Nat)
    (op : Op) :
    ((Shared.start c ops).run schedule).store =
      applyLog c ((Shared.start c ops).run schedule).log ∧
    (∀ t, ¬ Sectioned (((Shared.start c ops).run schedule).threads t).prog →
      ((Shared.start c ops).run schedule).owner = some t) ∧
    (∀ t u, ¬ Sectioned (((Shared.start c ops).run schedule).threads t).prog →
      ¬ Sectioned (((Shared.start c ops).run schedule).threads u).prog → t = u) ∧
    (∀ t x, (((Shared.start c ops).run schedule).threads t).loaded = some x →
      ∃ n, n ≤ ((Shared.start c ops).run schedule).log.length ∧
        x = applyLog c (((Shared.start c ops).run schedule).log.take n)) ∧
    (∀ t, (((Shared.start c ops).run schedule).log.filter (fun e => e.1 = t)).map Prod.snd ++
        writesOf (((Shared.start c ops).run schedule).threads t).prog =
      (ops t).flatMap Op.writes) ∧
    (Sectioned op.body ∧ writesOf op.body = op.writes ∧
      op.writes.foldl Call.run c = op.run c) := by
  obtain ⟨h1, h2, h3, h4⟩ := Invariant_run c ops schedule
  refine ⟨h1, ?_, ?_, h3, h4, (Op_body_spec op).1, (Op_body_spec op).2, Op_writes_run op c⟩
  · intro t hn
    exact not_Sectioned_of_ThreadOK _ t (h2 t) hn
  · intro t u ht hu
    have e1 := not_Sectioned_of_ThreadOK _ t (h2 t) ht
    have e2 := not_Sectioned_of_ThreadOK _ u (h2 u) hu
    rw [e1] at e2
    exact Option.some.inj e2

/-- C19: for every store and every list of arguments, AppendAll without
overwrite option gives the same store as one call of Append per white space
delimited token of the arguments, in their order, with the key and the value
of the token; and AppendAll of the single argument s on the empty store gives
the store of NewCmdline(s). -/
theorem Cmdline_AppendAll_eq_Appends (c : Cmdline) (args : List Str) (s : Str) :
    c.AppendAll args [] =
      (argTokens args).foldl (fun c t => c.Append (tokenKey t) (tokenValue t)) c ∧
    (NewCmdline []).AppendAll [s] [] = NewCmdline s := by
  constructor
  · apply Cmdline_ext
    rw [AppendAll_nil_Parameters, foldl_Append_tokens]
  · apply Cmdline_ext
    have h0 : (NewCmdline []).Parameters = [] := (parse_eq_nil []).2 (by simp)
    rw [AppendAll_nil_Parameters, h0]
    simp only [NewCmdline]
    rw [parse_eq]
    simp [argTokens, tokens]

/-- C20: SetAll gives the same store as AppendAll with an overwrite list that
holds every key occurring in the arguments, and applying SetAll twice gives
the same store as applying it once. -/
theorem Cmdline_SetAll_spec (c : Cmdline) (args O : List Str)
    (hO : ∀ k ∈ (argTokens args).map tokenKey, k ∈ O) :
    c.SetAll args = c.AppendAll args [WithOverwriteArgs O] ∧
    (c.SetAll args).SetAll args = c.SetAll args := by
  constructor
  · rw [AppendAll_eq, foldl_mergeStep_all O _ c]
    · rfl
    · intro p hp
      apply hO
      rw [← Fields_Join_args]
      exact key_parse _ p hp
  · exact foldl_Set_fixed _ _ (fun p hp => find_SetAll c args p hp)

/-- C20 at a concrete store and concrete arguments. -/
theorem Cmdline_SetAll_spec_witness :
    (NewCmdline "quiet console=ttyS0 console=ttyS1".toList).SetAll
        ["console=ttyAMA0 init=/sbin/init".toList, "console=tty1".toList] =
      (NewCmdline "quiet console=ttyS0 console=ttyS1".toList).AppendAll
        ["console=ttyAMA0 init=/sbin/init".toList, "console=tty1".toList]
        [WithOverwriteArgs ["init".toList, "console".toList]] ∧
    ((NewCmdline "quiet console=ttyS0 console=ttyS1".toList).SetAll
        ["console=ttyAMA0 init=/sbin/init".toList, "console=tty1".toList]).SetAll
        ["console=ttyAMA0 init=/sbin/init".toList, "console=tty1".toList] =
      (NewCmdline "quiet console=ttyS0 console=ttyS1".toList).SetAll
        ["console=ttyAMA0 init=/sbin/init".toList, "console=tty1".toList] :=
  Cmdline_SetAll_spec _ _ _ (by decide)

/-- C21: on a store with pairwise distinct keys, Set (k, p) with a parameter
whose own key is k leaves a store with pairwise distinct keys; Set makes no
check of the key of p, and with a parameter of another key the keys need not
stay distinct: on the store of the text a b, Set (a, NewParameter(b)) leaves
two entries with key b. -/
theorem Cmdline_Set_keeps_keys_unique (c : Cmdline) (k : Str) (p : Parameter)
    (hc : (keys c.Parameters).Nodup) (hp : p.Key = k) :
    (keys (c.Set k p).Parameters).Nodup ∧
    ((keys (NewCmdline "a b".toList).Parameters).Nodup ∧
      keys ((NewCmdline "a b".toList).Set "a".toList (NewParameter "b".toList)).Parameters =
        ["b".toList, "b".toList]) := by
  refine ⟨nodup_Set c k p hp hc, ?_⟩
  decide

/-- C21 at a concrete store: replacing the root entry of the store of the
text quiet root=/dev/sda1 by a parameter with key root. -/
theorem Cmdline_Set_keeps_keys_unique_witness :
    (keys (NewCmdline "quiet root=/dev/sda1".toList).Parameters).Nodup ∧
    ((NewParameter "root".toList).Append "/dev/sda2".toList).Key = "root".toList ∧
    (keys ((NewCmdline "quiet root=/dev/sda1".toList).Set "root".toList
      ((NewParameter "root".toList).Append "/dev/sda2".toList)).Parameters).Nodup :=
  ⟨by decide, by decide,
   (Cmdline_Set_keeps_keys_unique (NewCmdline "quiet root=/dev/sda1".toList) "root".toList
      ((NewParameter "root".toList).Append "/dev/sda2".toList) (by decide) (by decide)).1⟩

/-- C22: for every Parameter reference, the nil one and one without values
included, First returns the same result as Get with index 0: the first value
when there is one and the absent result otherwise, without a fault. -/
theorem Parameter_First_eq_Get_zero (v : Option Parameter) :
    Parameter.First v = Parameter.Get v 0 ∧
    Parameter.First v = Except.ok (v.bind (fun p => p.values.head?)) ∧
    Parameter.First none = Except.ok none ∧
    Parameter.First (some ⟨['k'], []⟩) = Except.ok none := by
  refine ⟨?_, Parameter_First_eq v, rfl, rfl⟩
  rw [Parameter_First_eq]
  cases v with
  | none => rfl
  | some p =>
    have h := Parameter_Get_of_nonneg p 0
    simp only [Nat.cast_zero] at h
    rw [h]
    congr 1
    show p.values.head? = p.values.get? 0
    cases hv : p.values <;> rfl

end Procfs
